import Mathlib

/-!
Verification development for the obsidian-confluence-sync synchronization
engine.  The TypeScript sources are shallowly embedded: strings are Lean
`String`s processed as `List Char`, the JavaScript `Map`s become association
lists with insertion-order semantics, remote calls become values drawn from an
explicit environment record, and exceptions become `Except` values.  JavaScript
regular-expression passes are embedded as direct left-to-right scanners with
the same matching semantics; `localeCompare` on the lowercase ASCII strings the
program sorts is modelled as code-point comparison; `String.prototype.toLowerCase`
is modelled on the ASCII range.
-/

namespace ConfluenceSync

/-! ## Basic string utilities shared by the embedded modules -/

/-- JavaScript whitespace (the regex class backslash-s and `String.trim`):
space, tab, line feed, vertical tab, form feed, carriage return, NBSP, BOM and
the Unicode space separators. -/
def isJsSpace (c : Char) : Bool :=
  c = ' ' || c = '\t' || c = '\n' || c.toNat = 0x0b || c.toNat = 0x0c || c = '\r' ||
  c.toNat = 0xa0 || c.toNat = 0x1680 ||
  (0x2000 ≤ c.toNat && c.toNat ≤ 0x200a) ||
  c.toNat = 0x2028 || c.toNat = 0x2029 || c.toNat = 0x202f || c.toNat = 0x205f ||
  c.toNat = 0x3000 || c.toNat = 0xfeff

/-- `String.prototype.trim` on a character list. -/
def jsTrim (l : List Char) : List Char :=
  ((l.dropWhile isJsSpace).reverse.dropWhile isJsSpace).reverse

/-- `String.prototype.toLowerCase`, modelled on the ASCII range. -/
def lowerAscii (c : Char) : Char :=
  if 'A' ≤ c ∧ c ≤ 'Z' then Char.ofNat (c.toNat + 32) else c

/-- Case-insensitive character comparison (ASCII folding). -/
def ciEq (a b : Char) : Bool := lowerAscii a = lowerAscii b

/-- Does the pattern `pat` occur at the head of `l` (case-sensitively)? -/
def litAt : List Char → List Char → Bool
  | [], _ => true
  | _ :: _, [] => false
  | p :: ps, c :: cs => p = c && litAt ps cs

/-- Does the pattern `pat` occur at the head of `l`, case-insensitively? -/
def litAtCI : List Char → List Char → Bool
  | [], _ => true
  | _ :: _, [] => false
  | p :: ps, c :: cs => ciEq p c && litAtCI ps cs

/-- `String.prototype.replace` with a global literal pattern:
left-to-right scan, non-overlapping matches.  The `fuel` argument makes the
recursion structural; every match consumes at least one character, so fuel
equal to the input length is always sufficient. -/
def replaceLitGo (pat rep : List Char) : Nat → List Char → List Char
  | _, [] => []
  | 0, l => l
  | fuel + 1, c :: rest =>
    if pat ≠ [] ∧ litAt pat (c :: rest) then
      rep ++ replaceLitGo pat rep fuel ((c :: rest).drop pat.length)
    else
      c :: replaceLitGo pat rep fuel rest

def replaceLit (pat rep l : List Char) : List Char :=
  replaceLitGo pat rep l.length l

/-- Case-insensitive variant of `replaceLit`. -/
def replaceLitCIGo (pat rep : List Char) : Nat → List Char → List Char
  | _, [] => []
  | 0, l => l
  | fuel + 1, c :: rest =>
    if pat ≠ [] ∧ litAtCI pat (c :: rest) then
      rep ++ replaceLitCIGo pat rep fuel ((c :: rest).drop pat.length)
    else
      c :: replaceLitCIGo pat rep fuel rest

def replaceLitCI (pat rep l : List Char) : List Char :=
  replaceLitCIGo pat rep l.length l

/-- `String.prototype.includes`. -/
def containsSub : List Char → List Char → Bool
  | l, pat =>
    match l with
    | [] => pat.isEmpty
    | _ :: rest => litAt pat l || containsSub rest pat

/-- Code-point comparison of strings: the model used for `localeCompare` on
the lowercase ASCII identifiers this program sorts. -/
def strLeGo : List Char → List Char → Bool
  | [], _ => true
  | _ :: _, [] => false
  | a :: as, b :: bs =>
    if a.toNat < b.toNat then true
    else if b.toNat < a.toNat then false
    else strLeGo as bs

def strLe (a b : String) : Bool := strLeGo a.data b.data

/-- Stable insertion into a sorted list; the element is placed before the
first existing element it compares less-or-equal to. -/
def insertLe {α : Type} (le : α → α → Bool) (x : α) : List α → List α
  | [] => [x]
  | y :: ys => if le x y then x :: y :: ys else y :: insertLe le x ys

/-- Stable sort by a boolean `le`, modelling `Array.prototype.sort`
(stable per the ECMAScript specification). -/
def sortLe {α : Type} (le : α → α → Bool) : List α → List α
  | [] => []
  | x :: xs => insertLe le x (sortLe le xs)

/-- Deduplication keeping first occurrences (JavaScript `Set` / `Map`
insertion-order semantics). -/
def dedupFirstGo (seen : List String) : List String → List String
  | [] => []
  | x :: rest =>
    if x ∈ seen then dedupFirstGo seen rest
    else x :: dedupFirstGo (x :: seen) rest

/-! ## src/tags.ts — `toConfluenceLabel`

Source pipeline: trim, toLowerCase, strip a leading run of `#`, map `/` to
`-`, map every character outside `[a-z0-9-]` to `-`, collapse runs of `-`,
strip one leading and one trailing `-`, truncate to 255 characters. -/

/-- A character the label sanitiser keeps: `[a-z0-9-]`. -/
def isLabelKeep (c : Char) : Bool :=
  ('a' ≤ c && c ≤ 'z') || ('0' ≤ c && c ≤ '9') || c = '-'

/-- The global dash-plus replacement pass: collapse each run of hyphens to
one hyphen.  The flag records whether the previously emitted character was a
hyphen, so a hyphen run contributes exactly one output hyphen. -/
def collapseDashesGo : Bool → List Char → List Char
  | _, [] => []
  | prevDash, c :: rest =>
    if c = '-' then
      if prevDash then collapseDashesGo true rest
      else '-' :: collapseDashesGo true rest
    else c :: collapseDashesGo false rest

def collapseDashes (l : List Char) : List Char :=
  collapseDashesGo false l

/-- The pass `replace(/^-|-$/g, "")`: remove one leading and one trailing
hyphen. -/
def stripEdgeDashes (l : List Char) : List Char :=
  let l1 := if l.head? = some '-' then l.tail else l
  if l1.getLast? = some '-' then l1.dropLast else l1

/-- `toConfluenceLabel` from src/tags.ts. -/
def toConfluenceLabel (tag : String) : String :=
  let s := jsTrim tag.data
  let s := s.map lowerAscii
  let s := s.dropWhile (· = '#')
  let s := s.map (fun c => if c = '/' then '-' else c)
  let s := s.map (fun c => if isLabelKeep c then c else '-')
  let s := collapseDashes s
  let s := stripEdgeDashes s
  ⟨s.take 255⟩

/-! ## src/storageNormalise.ts — `normaliseStorage`

Each global-regex pass of the source becomes a left-to-right scanner: at every
position the pass either matches (consuming at least one character and
emitting a replacement) or copies one character and moves on, exactly the
semantics of `String.prototype.replace` with a global pattern.  A matcher
returns the consumed length and the replacement. -/

def Matcher := List Char → Option (Nat × List Char)

/-- Run one scanner pass.  Fuel equal to the input length is always enough
because every match consumes at least one character. -/
def scanRepl (m : Matcher) : Nat → List Char → List Char
  | _, [] => []
  | 0, l => l
  | fuel + 1, c :: rest =>
    match m (c :: rest) with
    | some (n, rep) =>
      if n = 0 then c :: scanRepl m fuel rest
      else rep ++ scanRepl m fuel ((c :: rest).drop n)
    | none => c :: scanRepl m fuel rest

def scanReplAll (m : Matcher) (l : List Char) : List Char :=
  scanRepl m l.length l

/-- Length of the run of characters satisfying `p` at the head. -/
def countWhile (p : Char → Bool) : List Char → Nat
  | [] => 0
  | c :: rest => if p c then countWhile p rest + 1 else 0

def isWordChar (c : Char) : Bool :=
  ('A' ≤ c && c ≤ 'Z') || ('a' ≤ c && c ≤ 'z') || ('0' ≤ c && c ≤ '9') || c = '_'

/-- First index at which `pat` occurs (case-insensitively), if any. -/
def findSubCI (pat : List Char) : List Char → Option Nat
  | [] => if pat.isEmpty then some 0 else none
  | c :: rest =>
    if litAtCI pat (c :: rest) then some 0
    else (findSubCI pat rest).map (· + 1)

/-- The space-and-tab run collapse pass. -/
def spaceTabMatcher : Matcher := fun l =>
  let k := countWhile (fun c => c = ' ' || c = '\t') l
  if k ≥ 1 then some (k, [' ']) else none

/-- The blank-line collapse pass (two or more newlines become one). -/
def newlineRunMatcher : Matcher := fun l =>
  let k := countWhile (· = '\n') l
  if k ≥ 2 then some (k, ['\n']) else none

/-- The whitespace-between-tags removal pass. -/
def interTagWsMatcher : Matcher := fun l =>
  match l with
  | '>' :: rest =>
    let k := countWhile isJsSpace rest
    if k ≥ 1 ∧ (rest.drop k).head? = some '<' then some (k + 2, ['>', '<'])
    else none
  | _ => none

/-- Self-closing-tag canonicalization: `tag` is `br` or `hr`, `withSlash`
selects the variant with a slash before the closing angle bracket. -/
def selfCloseMatcher (tag : List Char) (withSlash : Bool) : Matcher := fun l =>
  if litAtCI ('<' :: tag) l then
    let afterOpen := l.drop (tag.length + 1)
    let k1 := countWhile isJsSpace afterOpen
    if withSlash then
      match (afterOpen.drop k1).head? with
      | some '/' =>
        let afterSlash := afterOpen.drop (k1 + 1)
        let k2 := countWhile isJsSpace afterSlash
        if (afterSlash.drop k2).head? = some '>' then
          some (tag.length + 1 + k1 + 1 + k2 + 1, '<' :: tag ++ ['/', '>'])
        else none
      | _ => none
    else
      if (afterOpen.drop k1).head? = some '>' then
        some (tag.length + 1 + k1 + 1, '<' :: tag ++ ['/', '>'])
      else none
  else none

/-- Entity canonicalization: the first alternative of `pats` that matches
case-insensitively is replaced by `rep`. -/
def entityMatcher (pats : List (List Char)) (rep : List Char) : Matcher := fun l =>
  match pats.find? (fun p => litAtCI p l) with
  | some p => some (p.length, rep)
  | none => none

/-- The attribute-value alternation: a double-quoted value, a single-quoted
value, or a bare run of characters that are neither whitespace nor a closing
angle bracket (in that order, as in the source pattern). -/
def matchAttrValue (l : List Char) : Option Nat :=
  let quoted := fun (q : Char) =>
    match l with
    | c :: rest =>
      if c = q then (rest.findIdx? (fun d => d = q)).map (fun i => i + 2)
      else none
    | [] => none
  match quoted '"' with
  | some n => some n
  | none =>
    match quoted (Char.ofNat 39) with
    | some n => some n
    | none =>
      let k := countWhile (fun c => !(isJsSpace c || c = '>')) l
      if k ≥ 1 then some k else none

/-- `stripAttributeEverywhere`: one whitespace character, the attribute name,
an equals sign and a value are removed. -/
def stripAttrMatcher (attr : List Char) : Matcher := fun l =>
  match l with
  | c :: rest =>
    if isJsSpace c && litAtCI attr rest then
      match rest.drop attr.length with
      | '=' :: v =>
        (matchAttrValue v).map (fun n => (1 + attr.length + 1 + n, []))
      | _ => none
    else none
  | [] => none

def stripAttributeEverywhere (l : List Char) (attr : String) : List Char :=
  scanReplAll (stripAttrMatcher attr.data) l

/-- The literal empty-paragraph pass. -/
def emptyParaBrMatcher : Matcher := fun l =>
  if litAtCI "<p><br/></p>".data l then some (12, []) else none

/-- The whitespace-only paragraph pass. -/
def emptyParaMatcher : Matcher := fun l =>
  if litAtCI "<p>".data l then
    let afterOpen := l.drop 3
    let k := countWhile isJsSpace afterOpen
    if litAtCI "</p>".data (afterOpen.drop k) then some (3 + k + 4, [])
    else none
  else none

/-- List-item paragraph-wrapper unwrapping (opening side). -/
def liOpenMatcher : Matcher := fun l =>
  if litAtCI "<li>".data l then
    let afterOpen := l.drop 4
    let k := countWhile isJsSpace afterOpen
    if litAtCI "<p>".data (afterOpen.drop k) then
      some (4 + k + 3, "<li>".data)
    else none
  else none

/-- List-item paragraph-wrapper unwrapping (closing side). -/
def liCloseMatcher : Matcher := fun l =>
  if litAtCI "</p>".data l then
    let afterOpen := l.drop 4
    let k := countWhile isJsSpace afterOpen
    if litAtCI "</li>".data (afterOpen.drop k) then
      some (4 + k + 5, "</li>".data)
    else none
  else none

/-- `escapeXmlText` from the source: ampersand, then less-than, then
greater-than. -/
def escapeXmlText (l : List Char) : List Char :=
  replaceLit ">".data "&gt;".data
    (replaceLit "<".data "&lt;".data
      (replaceLit "&".data "&amp;".data l))

/-- Whitespace-run collapse used on CDATA link bodies. -/
def wsRunMatcher : Matcher := fun l =>
  let k := countWhile isJsSpace l
  if k ≥ 1 then some (k, [' ']) else none

/-- `normalisePlainTextLinkBodies`: rewrite a CDATA-wrapped link body into the
canonical non-CDATA form. -/
def plainTextLinkBodyMatcher : Matcher := fun l =>
  let openPat := "<ac:plain-text-link-body><![CDATA[".data
  let closePat := "]]></ac:plain-text-link-body>".data
  if litAtCI openPat l then
    let afterOpen := l.drop openPat.length
    match findSubCI closePat afterOpen with
    | some i =>
      let inner := afterOpen.take i
      let text := jsTrim (scanReplAll wsRunMatcher inner)
      some (openPat.length + i + closePat.length,
        "<ac:plain-text-link-body>".data ++ escapeXmlText text ++
          "</ac:plain-text-link-body>".data)
    | none => none
  else none

def normalisePlainTextLinkBodies (l : List Char) : List Char :=
  scanReplAll plainTextLinkBodyMatcher l

/-- One candidate position for the backtracking attribute-region match inside
a parameter tag: at offset `j` after the tag name the literal ac:name and a
double quote must appear, followed by a nonempty value, its closing quote,
the remainder of the attribute region and the closing angle bracket.
Returns the length consumed after the tag name, and the lowercased name. -/
def paramNameAt (after : List Char) (j : Nat) : Option (Nat × List Char) :=
  let namePat := "ac:name=".data ++ ['"']
  if litAtCI namePat (after.drop j) then
    let v := after.drop (j + namePat.length)
    match v.findIdx? (fun c => c = '"') with
    | some k =>
      if k ≥ 1 then
        let rest2 := v.drop (k + 1)
        let k2 := countWhile (fun c => ¬ c = '>') rest2
        if (rest2.drop k2).head? = some '>' then
          some (j + namePat.length + k + 1 + k2 + 1, (v.take k).map lowerAscii)
        else none
      else none
    | none => none
  else none

/-- Greedy-with-backtracking search: the rightmost candidate wins, as for a
greedy character class followed by a literal. -/
def paramNameSearch (after : List Char) : Nat → Option (Nat × List Char)
  | 0 => paramNameAt after 0
  | j + 1 =>
    match paramNameAt after (j + 1) with
    | some r => some r
    | none => paramNameSearch after j

/-- Match one complete parameter element, returning the total length and the
lowercased parameter name. -/
def matchParamAt (l : List Char) : Option (Nat × List Char) :=
  let openPat := "<ac:parameter".data
  let closePat := "</ac:parameter>".data
  if litAtCI openPat l then
    let boundaryOk := match (l.drop openPat.length).head? with
      | some c => !isWordChar c
      | none => true
    if boundaryOk then
      let after := l.drop openPat.length
      let run0 := countWhile (fun c => ¬ c = '>') after
      match paramNameSearch after run0 with
      | some (hl, name) =>
        let headerLen := openPat.length + hl
        match findSubCI closePat (l.drop headerLen) with
        | some i => some (headerLen + i + closePat.length, name)
        | none => none
      | none => none
    else none
  else none

/-- Collect every parameter element of a macro block in document order
(the exec loop of the source), as pairs of lowercased name and raw slice. -/
def collectParamsGo : Nat → List Char → List (List Char × List Char)
  | _, [] => []
  | 0, _ => []
  | fuel + 1, l =>
    match l with
    | [] => []
    | _ :: rest =>
      match matchParamAt l with
      | some (n, name) =>
        if n = 0 then collectParamsGo fuel rest
        else (name, l.take n) :: collectParamsGo fuel (l.drop n)
      | none => collectParamsGo fuel rest

/-- Match the opening structured-macro tag at the head of the input,
returning its length. -/
def macroOpenLen (l : List Char) : Option Nat :=
  let openPat := "<ac:structured-macro".data
  if litAtCI openPat l then
    let boundaryOk := match (l.drop openPat.length).head? with
      | some c => !isWordChar c
      | none => true
    if boundaryOk then
      let k := countWhile (fun c => ¬ c = '>') (l.drop openPat.length)
      if (l.drop (openPat.length + k)).head? = some '>' then
        some (openPat.length + k + 1)
      else none
    else none
  else none

/-- `sortParamsInMacro` from the source: collect the parameters, remove them,
sort them by lowercased name, and re-insert them after the opening tag.  A
block with at most one parameter is returned unchanged. -/
def sortParamsInMacroBlock (mblock : List Char) : List Char :=
  let params := collectParamsGo mblock.length mblock
  if params.length ≤ 1 then mblock
  else
    let noParams := scanReplAll
      (fun l => (matchParamAt l).map (fun p => (p.1, ([] : List Char)))) mblock
    match macroOpenLen noParams with
    | some n =>
      let sorted := sortLe (fun a b => strLe ⟨a.1⟩ ⟨b.1⟩) params
      noParams.take n ++ (sorted.map (·.2)).flatten ++ noParams.drop n
    | none => mblock

/-- One structured-macro block: opening tag, then lazily up to the first
closing tag; the block is rewritten by `sortParamsInMacroBlock`. -/
def macroBlockMatcher : Matcher := fun l =>
  let closePat := "</ac:structured-macro>".data
  match macroOpenLen l with
  | some n =>
    match findSubCI closePat (l.drop n) with
    | some i =>
      let total := n + i + closePat.length
      some (total, sortParamsInMacroBlock (l.take total))
    | none => none
  | none => none

def normaliseMacroParameterOrder (l : List Char) : List Char :=
  scanReplAll macroBlockMatcher l

/-- The composite tags whose attributes are sorted, in source order. -/
def knownTagNames : List String :=
  ["ac:structured-macro", "ac:parameter", "ac:link", "ac:image",
   "ri:page", "ri:attachment", "ri:url"]

def isNameStart (c : Char) : Bool :=
  ('A' ≤ c && c ≤ 'Z') || ('a' ≤ c && c ≤ 'z') || c = '_' || c = ':'

def isNameChar (c : Char) : Bool :=
  ('A' ≤ c && c ≤ 'Z') || ('a' ≤ c && c ≤ 'z') || ('0' ≤ c && c ≤ '9') ||
  c = ':' || c = '.' || c = '_' || c = '-'

/-- Match one name=value attribute at the head of the chunk, returning the
consumed length, the lowercased name (the sort key) and the raw slice. -/
def attrMatchAt (l : List Char) : Option (Nat × List Char × List Char) :=
  match l with
  | c :: rest =>
    if isNameStart c then
      let k := countWhile isNameChar rest
      match (rest.drop k).head? with
      | some d =>
        if d = '=' then
          (matchAttrValue (rest.drop (k + 1))).map (fun n =>
            (1 + k + 1 + n, (c :: rest.take k).map lowerAscii,
              l.take (1 + k + 1 + n)))
        else none
      | none => none
    else none
  | [] => none

/-- `parseAttributes` from the source: scan the attribute chunk left to right
collecting every attribute match. -/
def parseAttributesGo : Nat → List Char → List (List Char × List Char)
  | _, [] => []
  | 0, _ => []
  | fuel + 1, l =>
    match l with
    | [] => []
    | _ :: rest =>
      match attrMatchAt l with
      | some (n, name, raw) =>
        if n = 0 then parseAttributesGo fuel rest
        else (name, raw) :: parseAttributesGo fuel (l.drop n)
      | none => parseAttributesGo fuel rest

def parseAttributes (chunk : List Char) : List (List Char × List Char) :=
  parseAttributesGo chunk.length chunk

/-- `sortAttributesForKnownTags`: rewrite each known tag with its attributes
sorted by lowercased name and joined by single spaces; non-attribute text in
the chunk is dropped by the rebuild, as in the source. -/
def knownTagMatcher : Matcher := fun l =>
  match l with
  | '<' :: rest =>
    match knownTagNames.find? (fun t =>
        litAtCI t.data rest &&
          (match (rest.drop t.data.length).head? with
           | some c => !isWordChar c
           | none => true)) with
    | some t =>
      let tagRaw := rest.take t.data.length
      let afterTag := rest.drop t.data.length
      let k := countWhile (fun c => ¬ c = '>') afterTag
      if (afterTag.drop k).head? = some '>' then
        let chunk := afterTag.take k
        let attrs := parseAttributes chunk
        let sorted := sortLe (fun a b => strLe ⟨a.1⟩ ⟨b.1⟩) attrs
        let rebuilt :=
          if attrs.isEmpty then '<' :: tagRaw ++ ['>']
          else '<' :: tagRaw ++ [' '] ++
            List.intercalate [' '] (sorted.map (·.2)) ++ ['>']
        some (1 + t.data.length + k + 1, rebuilt)
      else none
    | none => none
  | _ => none

def sortAttributesForKnownTags (l : List Char) : List Char :=
  scanReplAll knownTagMatcher l

/-- `normaliseStorage` from src/storageNormalise.ts, pass for pass. -/
def normaliseStorage (storage : String) : String :=
  if storage = "" then "" else
  let s := storage.data
  let s := replaceLit "\r\n".data "\n".data s
  let s := replaceLit "\r".data "\n".data s
  let s := jsTrim s
  let s := scanReplAll spaceTabMatcher s
  let s := scanReplAll newlineRunMatcher s
  let s := scanReplAll interTagWsMatcher s
  let s := scanReplAll (selfCloseMatcher "br".data false) s
  let s := scanReplAll (selfCloseMatcher "br".data true) s
  let s := scanReplAll (selfCloseMatcher "hr".data false) s
  let s := scanReplAll (selfCloseMatcher "hr".data true) s
  let s := scanReplAll (entityMatcher
    ["&rsquo;".data, "&#8217;".data, "&#x2019;".data] [Char.ofNat 0x2019]) s
  let s := scanReplAll (entityMatcher
    ["&lsquo;".data, "&#8216;".data, "&#x2018;".data] [Char.ofNat 0x2018]) s
  let s := scanReplAll (entityMatcher
    ["&ldquo;".data, "&#8220;".data, "&#x201C;".data] [Char.ofNat 0x201c]) s
  let s := scanReplAll (entityMatcher
    ["&rdquo;".data, "&#8221;".data, "&#x201D;".data] [Char.ofNat 0x201d]) s
  let s := scanReplAll (entityMatcher
    ["&ndash;".data, "&#8211;".data, "&#x2013;".data] [Char.ofNat 0x2013]) s
  let s := scanReplAll (entityMatcher
    ["&mdash;".data, "&#8212;".data, "&#x2014;".data] [Char.ofNat 0x2014]) s
  let s := scanReplAll (entityMatcher
    ["&bull;".data, "&#8226;".data, "&#x2022;".data] [Char.ofNat 0x2022]) s
  let s := scanReplAll (entityMatcher
    ["&nbsp;".data, "&#160;".data, "&#xA0;".data] [' ']) s
  let s := stripAttributeEverywhere s "data-mce-style"
  let s := stripAttributeEverywhere s "data-mce-bogus"
  let s := stripAttributeEverywhere s "data-mce-selected"
  let s := stripAttributeEverywhere s "data-mce-href"
  let s := stripAttributeEverywhere s "contenteditable"
  let s := stripAttributeEverywhere s "spellcheck"
  let s := stripAttributeEverywhere s "ri:version-at-save"
  let s := stripAttributeEverywhere s "ac:macro-id"
  let s := stripAttributeEverywhere s "ac:local-id"
  let s := stripAttributeEverywhere s "ac:schema-version"
  let s := scanReplAll emptyParaBrMatcher s
  let s := scanReplAll emptyParaMatcher s
  let s := scanReplAll liOpenMatcher s
  let s := scanReplAll liCloseMatcher s
  let s := normalisePlainTextLinkBodies s
  let s := normaliseMacroParameterOrder s
  let s := sortAttributesForKnownTags s
  let s := scanReplAll interTagWsMatcher s
  let s := jsTrim s
  ⟨s⟩

/-! ## src/mapping.ts — `MappingService` and the rename handler of src/main.ts

The store is a JavaScript object keyed by file path (keys unique); it is
modelled as an association list.  `delete` is modelled by filtering the key
out, `set` replaces the value in place or appends. -/

structure MappingEntry where
  filePath : String
  pageId : String
  title : String
  webui : Option String
  updatedAt : String
deriving DecidableEq

abbrev MappingStore := List (String × MappingEntry)

def storeGet (st : MappingStore) (path : String) : Option MappingEntry :=
  (List.find? (fun e => e.1 = path) st).map (·.2)

def storeSet : MappingStore → MappingEntry → MappingStore
  | [], e => [(e.filePath, e)]
  | (k, v) :: rest, e =>
    if k = e.filePath then (k, e) :: rest else (k, v) :: storeSet rest e

def storeRemove (st : MappingStore) (path : String) : MappingStore :=
  List.filter (fun e => ¬ e.1 = path) st

/-- The vault `rename` event handler registered in src/main.ts: given the
renamed file (new path, basename and extension) and the old path, migrate the
mapping entry.  `loadOk` models whether `mapping.load()` succeeded (on failure
the handler returns without touching the store). -/
def renameHandler (st : MappingStore) (loadOk : Bool)
    (newPath newBasename ext oldPath now : String) : MappingStore :=
  if newPath = "" then st
  else if ext ≠ "md" then st
  else if !loadOk then st
  else
    match storeGet st oldPath with
    | none => st
    | some e =>
      if e.pageId = "" then st
      else
        storeSet (storeRemove st oldPath)
          { e with filePath := newPath, title := newBasename, updatedAt := now }

/-! ## src/hierarchy.ts — `buildHierarchy`

Documents are their path strings.  The Obsidian metadata cache is an
environment: `links` gives the link texts of a file in cache order,
`resolveDest` models `getFirstLinkpathDest` (returning the destination path
and extension of the resolved file, if any), `fmParent` models the
frontmatter chain parent / Parent / confluenceParent.  The JavaScript `Map`
becomes an association list with set-in-place semantics; `null` parents are
`none`.  The depth-first cycle-breaking search carries fuel: every recursion
step pushes a fresh key onto the visiting chain, so fuel exceeding the number
of keys never runs out (this is proved, not assumed, by the C6 theorem
chain). -/

structure VaultMeta where
  links : String → List String
  resolveDest : String → String → Option (String × String)
  fmParent : String → Option String

inductive HierarchyMode
  | flat
  | links
  | folder
  | frontmatter
  | hybrid
deriving DecidableEq

inductive ManyToManyPolicy
  | firstSeen
  | closestToRoot
  | preferFolderIndex
deriving DecidableEq

abbrev ParentMap := List (String × Option String)

def pmGet (m : ParentMap) (k : String) : Option (Option String) :=
  (List.find? (fun e => e.1 = k) m).map (·.2)

def pmSet : ParentMap → String → Option String → ParentMap
  | [], k, v => [(k, v)]
  | (k0, v0) :: rest, k, v =>
    if k0 = k then (k0, v) :: rest else (k0, v0) :: pmSet rest k v

/-- `firstLinkedExportedParent`: the first outbound link of the file that
resolves to a markdown file inside the export set. -/
def firstLinkedExportedParent (env : VaultMeta) (f : String)
    (files : List String) : Option String :=
  go (env.links f)
where
  go : List String → Option String
    | [] => none
    | l :: rest =>
      match env.resolveDest l f with
      | some (p, e) => if e = "md" ∧ p ∈ files then some p else go rest
      | none => go rest

/-- One step of `folderParentCandidate`: the folder path is the reversed
segment stack; try `folder/index.md`, then the eponymous folder note, then
pop. -/
def folderParentGo (files : List String) : List (List Char) → Option String
  | [] => none
  | seg :: rest =>
    let folder := List.intercalate ['/'] (seg :: rest).reverse
    let idx : String := ⟨folder ++ "/index.md".data⟩
    if idx ∈ files then some idx
    else
      let folderNote : String := ⟨folder ++ ['/'] ++ seg ++ ".md".data⟩
      if folderNote ∈ files then some folderNote
      else folderParentGo files rest

/-- `folderParentCandidate`: split the path, drop the filename, search
upward. -/
def folderParentCandidate (f : String) (files : List String) : Option String :=
  folderParentGo files (f.data.splitOn '/').reverse.tail

/-- `resolveTitleToPath`: resolve the declared parent name and keep it only
when it is a markdown file in the export set. -/
def resolveTitleToPath (env : VaultMeta) (title fromPath : String)
    (files : List String) : Option String :=
  match env.resolveDest title fromPath with
  | some (p, e) => if e = "md" ∧ p ∈ files then some p else none
  | none => none

/-- The cycle-breaking depth-first search of `resolveManyToMany`.  Returns
the possibly mutated map and the enlarged visited set; a node already being
visited on the current chain has its parent rewritten to the root. -/
def dfsVisit (root : String) : Nat → ParentMap → List String → List String →
    String → ParentMap × List String
  | 0, m, visited, _, _ => (m, visited)
  | fuel + 1, m, visited, visiting, n =>
    if n ∈ visited then (m, visited)
    else if n ∈ visiting then (pmSet m n (some root), visited)
    else
      let step :=
        match pmGet m n with
        | some (some p) =>
          if ¬ p = "" then dfsVisit root fuel m visited (n :: visiting) p
          else (m, visited)
        | _ => (m, visited)
      (step.1, n :: step.2)

/-- `resolveManyToMany` (the policy parameter is accepted and ignored, as in
the source): default missing parents to root, break self-parents, then break
cycles by depth-first search over the files. -/
def resolveManyToMany (root : String) (files : List String) (m : ParentMap)
    (_policy : ManyToManyPolicy) : ParentMap :=
  let m1 := files.foldl (fun acc f =>
    if f = root then acc
    else
      match pmGet acc f with
      | some (some p) => if p = "" then pmSet acc f (some root) else acc
      | _ => pmSet acc f (some root)) m
  let m2 := m1.map (fun kv =>
    if kv.2 = some kv.1 then (kv.1, some root) else kv)
  (files.foldl (fun acc f =>
    dfsVisit root (acc.1.length + 1) acc.1 acc.2 [] f) (m2, [])).1

abbrev DepthMap := List (String × Nat)

def dmGet (dm : DepthMap) (k : String) : Option Nat :=
  (List.find? (fun e => e.1 = k) dm).map (·.2)

def dmSet : DepthMap → String → Nat → DepthMap
  | [], k, v => [(k, v)]
  | (k0, v0) :: rest, k, v =>
    if k0 = k then (k0, v) :: rest else (k0, v0) :: dmSet rest k v

/-- The memoized upward depth walk of `computeDepths`; fuel bounds the
recursion, which terminates for the cycle-free maps this is called on. -/
def getDepth (pm : ParentMap) : Nat → DepthMap → String → DepthMap × Nat
  | 0, dm, _ => (dm, 0)
  | fuel + 1, dm, p =>
    match dmGet dm p with
    | some d => (dm, d)
    | none =>
      match pmGet pm p with
      | some (some par) =>
        if ¬ par = "" then
          let r := getDepth pm fuel dm par
          (dmSet r.1 p (r.2 + 1), r.2 + 1)
        else (dmSet dm p 0, 0)
      | _ => (dmSet dm p 0, 0)

def computeDepths (rootPath : String) (pm : ParentMap) : DepthMap :=
  (pm.map (·.1)).foldl
    (fun dm k => (getDepth pm (pm.length + 1) dm k).1)
    (dmSet [] rootPath 0)

/-- `orderByDepthThenPath`: root first, the rest sorted by depth (999 when
missing) then by path. -/
def orderByDepthThenPath (files : List String) (dm : DepthMap)
    (rootPath : String) : List String :=
  let unique := dedupFirstGo [] files
  let rest := unique.filter (fun p => ¬ p = rootPath)
  let rest := sortLe (fun a b =>
    let da := (dmGet dm a).getD 999
    let db := (dmGet dm b).getD 999
    if da = db then strLe a b else decide (da < db)) rest
  if rootPath ∈ files then rootPath :: rest else rest

structure HierarchyResult where
  ordered : List String
  parentPathByPath : ParentMap
  depthByPath : DepthMap

/-- `buildHierarchy` from src/hierarchy.ts. -/
def buildHierarchy (env : VaultMeta) (root : String) (files : List String)
    (mode : HierarchyMode) (policy : ManyToManyPolicy) : HierarchyResult :=
  let m0 : ParentMap := pmSet [] root none
  match mode with
  | .flat =>
    let m := files.foldl (fun acc f =>
      if f = root then acc else pmSet acc f (some root)) m0
    let dm := computeDepths root m
    { ordered := orderByDepthThenPath files dm root,
      parentPathByPath := m, depthByPath := dm }
  | .folder =>
    let m := files.foldl (fun acc f =>
      if f = root then acc
      else pmSet acc f (some ((folderParentCandidate f files).getD root))) m0
    let m := pmSet m root none
    let m := resolveManyToMany root files m policy
    let dm := computeDepths root m
    { ordered := orderByDepthThenPath files dm root,
      parentPathByPath := m, depthByPath := dm }
  | .frontmatter =>
    let m := files.foldl (fun acc f =>
      if f = root then acc
      else
        let parentPath := (env.fmParent f).bind
          (fun nm => resolveTitleToPath env nm f files)
        pmSet acc f (some (parentPath.getD root))) m0
    let m := pmSet m root none
    let m := resolveManyToMany root files m policy
    let dm := computeDepths root m
    { ordered := orderByDepthThenPath files dm root,
      parentPathByPath := m, depthByPath := dm }
  | .links =>
    let m := files.foldl (fun acc f =>
      if f = root then acc
      else pmSet acc f
        (some ((firstLinkedExportedParent env f files).getD root))) m0
    let m := pmSet m root none
    let m := resolveManyToMany root files m policy
    let dm := computeDepths root m
    { ordered := orderByDepthThenPath files dm root,
      parentPathByPath := m, depthByPath := dm }
  | .hybrid =>
    let m := files.foldl (fun acc f =>
      if f = root then acc
      else pmSet acc f (some (((folderParentCandidate f files).orElse
        (fun _ => firstLinkedExportedParent env f files)).getD root))) m0
    let m := pmSet m root none
    let m := resolveManyToMany root files m policy
    let dm := computeDepths root m
    { ordered := orderByDepthThenPath files dm root,
      parentPathByPath := m, depthByPath := dm }

/-- The key list of a parent map. -/
def pmKeys (m : ParentMap) : List String := m.map (·.1)

/-- One step of the parent chain: the stored parent when it is a path. -/
def parentOf (m : ParentMap) (x : String) : Option String :=
  match pmGet m x with
  | some (some p) => some p
  | _ => none

/-- Following the parent map from `x` reaches a null parent within `k`
steps. -/
def reachesNullIn (m : ParentMap) : String → Nat → Bool
  | _, 0 => false
  | x, k + 1 =>
    match pmGet m x with
    | some none => true
    | some (some p) => reachesNullIn m p k
    | none => false

/-- The node reached after exactly `j` chain steps, if the chain is still
alive. -/
def chainAt (m : ParentMap) (x : String) : Nat → Option String
  | 0 => some x
  | j + 1 => (chainAt m x j).bind (parentOf m)

/-- The chain from `x` eventually reaches a null parent. -/
def GoodChain (m : ParentMap) (x : String) : Prop :=
  ∃ k, reachesNullIn m x k = true

/-- The construction invariant of the hierarchy parent maps: keys are unique
and drawn from the export set plus the root, stored parents are nonempty
keys, and the root maps to null. -/
structure PMInv (root : String) (files : List String) (m : ParentMap) : Prop where
  nodup : (pmKeys m).Nodup
  keys_sub : ∀ k ∈ pmKeys m, k = root ∨ k ∈ files
  vals_keys : ∀ kv ∈ m, ∀ p, kv.2 = some p → p ∈ pmKeys m ∧ ¬ p = ""
  root_null : pmGet m root = some none

/-- Combined post-condition of one depth-first visit, used by the acyclicity
development: the invariant and key set are preserved, mutations only redirect
parents to the root, terminating chains stay terminating, every visited node
has a terminating chain, and the visited node itself terminates. -/
abbrev DfsPost (root : String) (files : List String) (m : ParentMap)
    (visited visiting : List String) (n : String)
    (r : ParentMap × List String) : Prop :=
  PMInv root files r.1 ∧
  pmKeys r.1 = pmKeys m ∧
  (∀ x, pmGet r.1 x = pmGet m x ∨ pmGet r.1 x = some (some root)) ∧
  (∀ x, GoodChain m x → GoodChain r.1 x) ∧
  (∀ v ∈ r.2, GoodChain r.1 v) ∧
  (∀ v ∈ visited, v ∈ r.2) ∧
  GoodChain r.1 n ∧
  (visiting = [] → n ∈ r.2)

/-- The invariant of the per-mode construction folds, before the whole export
set has been inserted: stored parents are nonempty members of the export set
or the root (they may not be keys yet), keys are unique and drawn from the
export set plus the root, and the root maps to null. -/
structure ConstrInv (root : String) (files : List String) (m : ParentMap) :
    Prop where
  nodup : (pmKeys m).Nodup
  keys_sub : ∀ k ∈ pmKeys m, k = root ∨ k ∈ files
  vals_files : ∀ kv ∈ m, ∀ p, kv.2 = some p → (p = root ∨ p ∈ files) ∧ ¬ p = ""
  root_null : pmGet m root = some none

/-- The depth-first fold of `resolveManyToMany`, named for the proofs; it is
definitionally the fold in the source embedding. -/
abbrev dfsFold (root : String) (todo : List String)
    (acc : ParentMap × List String) : ParentMap × List String :=
  todo.foldl (fun acc f =>
    dfsVisit root (acc.1.length + 1) acc.1 acc.2 [] f) acc

/-- Concrete two-file vault used to evaluate the acyclicity theorem. -/
def c6Env : VaultMeta :=
  { links := fun f => if f = "A.md" then ["Root"] else [],
    resolveDest := fun l _ => if l = "Root" then some ("Root.md", "md") else none,
    fmParent := fun _ => none }

def c6Files : List String := ["Root.md", "A.md"]

/-! ## src/planBuilder.ts — `buildExportPlan`

The remote client, the vault and the snapshot store are modelled by an
environment of deterministic response functions; a remote call that throws is
an `Except.error` carrying the message string (a 404-class failure is one
whose message contains a space followed by 404, exactly the test in the
source).  Three text collaborators are kept uninterpreted environment
functions because every claim about the plan builder holds for all of their
values: `convert` (the markup converter, a separate component of the spec),
`stripTags` (`stripInlineTagsFromMarkdown`) and `desiredLabels`
(`computeDesiredLabels`, with the include-inline-tags setting folded in). -/

inductive PlanAction
  | create
  | update
  | recreate
  | skip
  | conflict
deriving DecidableEq

structure ExportPlanItem where
  filePath : String
  title : String
  selected : Bool
  action : PlanAction
  reason : String
  hasSnapshot : Bool
  hasDiff : Bool
  intendedParentFilePath : Option String
  depth : Nat
  applyLabelChanges : Bool
  pageId : Option String := none
  webui : Option String := none
  existingTitle : Option String := none
  titleChanged : Bool := false
  labelsDesired : List String := []
  labelsExisting : List String := []
  labelsToAdd : List String := []
  labelsToRemove : List String := []
  labelsChanged : Bool := false
  diffOld : Option String := none
  diffNew : Option String := none
deriving DecidableEq

def normaliseTextForDiff (t : String) : String :=
  let s := replaceLit "\r\n".data "\n".data t.data
  let s := replaceLit "\r".data "\n".data s
  let s := (s.splitOn '\n').map
    (fun line => (line.reverse.dropWhile (fun c => c = ' ' || c = '\t')).reverse)
  let s := List.intercalate ['\n'] s
  ⟨(s.reverse.dropWhile (· = '\n')).reverse⟩

/-- `String.prototype.trim` at the string level. -/
def trimS (x : String) : String := ⟨jsTrim x.data⟩

/-- `uniqSorted` from the source: trim, drop empties, deduplicate keeping the
first occurrence, sort. -/
def uniqSorted (xs : List String) : List String :=
  sortLe strLe (dedupFirstGo [] ((xs.map trimS).filter (fun x => ¬ x = "")))

structure LabelDiff where
  toAdd : List String
  toRemove : List String
  changed : Bool

def setDiff (existing desired : List String) : LabelDiff :=
  let a := uniqSorted existing
  let b := uniqSorted desired
  let toAdd := b.filter (fun x => !(decide (x ∈ a)))
  let toRemove := a.filter (fun x => !(decide (x ∈ b)))
  { toAdd := toAdd, toRemove := toRemove,
    changed := decide (toAdd.length > 0) || decide (toRemove.length > 0) }

structure RemotePage where
  id : String
  title : Option String
  storageValue : String
  webui : Option String
deriving DecidableEq

structure FoundPage where
  id : String
  webui : Option String
deriving DecidableEq

structure PlanEnv where
  readNote : String → String
  convert : String → String → String
  stripTags : String → String
  desiredLabels : String → List String
  getPageWithStorage : String → Except String RemotePage
  getLabels : String → Except String (List String)
  searchPageByTitle : String → String → Except String (Option FoundPage)
  hasSnapshot : String → Bool
  readSnapshot : String → Option String
  readStorageSnapshot : String → Option String
  toWebUrl : String → String

/-- JavaScript truthiness of the optional storage snapshot (non-null and
nonempty). -/
def snapTruthy : Option String → Bool
  | some s => ¬ s = ""
  | none => false

/-- The label-delta step shared by both found-page branches: on success the
delta against the remote labels, on failure everything desired is to be
added; the boolean result tells whether the failure branch was taken (case 1
appends to the reason there). -/
def applyLabelStep (env : PlanEnv) (item : ExportPlanItem) : ExportPlanItem × Bool :=
  match item.pageId with
  | some pid =>
    match env.getLabels pid with
    | .ok existingLabelsRaw =>
      let existingLabels := uniqSorted existingLabelsRaw
      let d := setDiff existingLabels item.labelsDesired
      ({ item with
          labelsExisting := existingLabels
          labelsToAdd := d.toAdd
          labelsToRemove := d.toRemove
          labelsChanged := d.changed }, false)
    | .error _ =>
      ({ item with
          labelsExisting := []
          labelsToAdd := item.labelsDesired
          labelsToRemove := []
          labelsChanged := decide (item.labelsDesired.length > 0) }, true)
  | none => (item, false)

/-- CASE 1 of the source with a successful page fetch. -/
def planCase1Found (env : PlanEnv) (item0 : ExportPlanItem) (m : MappingEntry)
    (path title mdPublish : String) (page : RemotePage) : ExportPlanItem :=
  let existingStorage := page.storageValue
  let newStorage := env.convert mdPublish path
  let b := normaliseStorage newStorage
  let oldStorageSnap := env.readStorageSnapshot path
  let a := oldStorageSnap.getD (normaliseStorage existingStorage)
  let item1 := { item0 with
    pageId := some page.id
    webui := match page.webui with
      | some w => some (env.toWebUrl w)
      | none => m.webui }
  let existingTitle := page.title.getD m.title
  let item2 := { item1 with
    existingTitle := some existingTitle
    titleChanged := ¬ existingTitle = title }
  let contentDiffers : Bool := ¬ a = b
  let lab := applyLabelStep env item2
  let item3 :=
    if lab.2 then
      { lab.1 with reason := lab.1.reason ++
          " (Could not read existing labels; will attempt add.)" }
    else lab.1
  let snapMdExists := env.hasSnapshot path
  let item4 := { item3 with hasSnapshot := snapMdExists }
  let item5 :=
    if snapMdExists then
      let oldMdRaw := (env.readSnapshot path).getD ""
      let oldMdPublish := env.stripTags oldMdRaw
      { item4 with
          diffOld := some (normaliseTextForDiff oldMdPublish)
          diffNew := some (normaliseTextForDiff mdPublish)
          hasDiff := true }
    else
      { item4 with
          diffOld := some ""
          diffNew := some (normaliseTextForDiff mdPublish)
          hasDiff := true
          reason := item4.reason ++
            " (No markdown snapshot yet — showing cleaned note only.)" }
  let needsUpdate := contentDiffers || item5.titleChanged || item5.labelsChanged
  if ¬ needsUpdate then
    { item5 with
        action := .skip
        selected := false
        hasDiff := false
        reason :=
          if snapTruthy oldStorageSnap then
            "No content/label changes detected (storage snapshot baseline)."
          else "No content/label changes detected (normalized)." }
  else
    { item5 with
        action := .update
        selected := true
        hasDiff := true
        reason :=
          if item5.titleChanged then "Title changed (will update page title)."
          else if contentDiffers then
            if snapTruthy oldStorageSnap then
              "Content differs from last export (storage snapshot baseline)."
            else "Content differs from Confluence (normalized)."
          else "Labels changed (tag-only change)." }

/-- CASE 1 of the source with a failed page fetch (the catch branch). -/
def planCase1Err (env : PlanEnv) (item0 : ExportPlanItem) (m : MappingEntry)
    (path mdPublish msg : String) : ExportPlanItem :=
  if containsSub msg.data " 404".data then
    let snapMdExists := env.hasSnapshot path
    { item0 with
        action := .recreate
        selected := true
        pageId := some m.pageId
        hasDiff := true
        hasSnapshot := snapMdExists
        diffOld := some (normaliseTextForDiff
          (if snapMdExists then env.stripTags ((env.readSnapshot path).getD "")
           else ""))
        diffNew := some (normaliseTextForDiff mdPublish)
        reason := "Mapping exists but page was deleted (404). Will recreate." }
  else
    { item0 with
        action := .skip
        selected := false
        hasDiff := false
        reason := "Could not verify mapped page: " ++ msg }

/-- CASE 2 of the source with a page found by title and fetched. -/
def planCase2Found (env : PlanEnv) (item0 : ExportPlanItem)
    (path mdPublish : String) (found : FoundPage) (page : RemotePage) :
    ExportPlanItem :=
  let existingStorage := page.storageValue
  let newStorage := env.convert mdPublish path
  let b := normaliseStorage newStorage
  let oldStorageSnap := env.readStorageSnapshot path
  let a := oldStorageSnap.getD (normaliseStorage existingStorage)
  let contentDiffers : Bool := ¬ a = b
  let item1 := { item0 with
    pageId := some page.id
    webui := match page.webui with
      | some w => some (env.toWebUrl w)
      | none => match found.webui with
        | some w => some (env.toWebUrl w)
        | none => none }
  let lab := applyLabelStep env item1
  let item3 := lab.1
  let needsUpdate := contentDiffers || item3.labelsChanged
  let snapMdExists := env.hasSnapshot path
  let item4 := { item3 with hasSnapshot := snapMdExists, hasDiff := true }
  let item5 :=
    if snapMdExists then
      let oldMdRaw := (env.readSnapshot path).getD ""
      let oldMdPublish := env.stripTags oldMdRaw
      { item4 with
          diffOld := some (normaliseTextForDiff oldMdPublish)
          diffNew := some (normaliseTextForDiff mdPublish) }
    else
      { item4 with
          diffOld := some ""
          diffNew := some (normaliseTextForDiff mdPublish)
          reason := item4.reason ++
            " (No markdown snapshot yet — showing cleaned note only.)" }
  if ¬ needsUpdate then
    { item5 with
        action := .skip
        selected := false
        hasDiff := false
        reason :=
          if snapTruthy oldStorageSnap then
            "Found page by title, but unchanged since last export (storage snapshot baseline)."
          else "Found page by title, but content is unchanged (normalized)." }
  else
    { item5 with
        action := .update
        selected := true
        hasDiff := true
        reason :=
          if contentDiffers then
            if snapTruthy oldStorageSnap then
              "Found page by title; differs from last export (storage snapshot baseline)."
            else "Found page by title; content differs (normalized)."
          else "Found page by title; labels changed (tag-only change)." }

/-- CASE 2 of the source (no usable mapping): search by title when
update-existing is enabled; a found page with a truthy id is fetched and
diffed, a miss becomes create, an exception becomes a skip whose reason
carries the error. -/
def planCase2 (env : PlanEnv) (item0 : ExportPlanItem) (updateExisting : Bool)
    (spaceKey path title mdPublish : String) : ExportPlanItem :=
  if updateExisting then
    match env.searchPageByTitle spaceKey title with
    | .ok (some found) =>
      if ¬ found.id = "" then
        match env.getPageWithStorage found.id with
        | .ok page => planCase2Found env item0 path mdPublish found page
        | .error e =>
          { item0 with
              action := .skip
              selected := false
              hasDiff := false
              reason := "Search failed: " ++ e }
      else
        { item0 with
            action := .create
            selected := true
            hasDiff := false
            reason := "No mapping found; no existing page by title in space." }
    | .ok none =>
      { item0 with
          action := .create
          selected := true
          hasDiff := false
          reason := "No mapping found; no existing page by title in space." }
    | .error e =>
      { item0 with
          action := .skip
          selected := false
          hasDiff := false
          reason := "Search failed: " ++ e }
  else item0

/-- The loop body of `buildExportPlan` for one file. -/
def planItemForFile (env : PlanEnv) (updateExisting : Bool) (spaceKey : String)
    (mapped : Option MappingEntry) (intendedParent : Option String)
    (depth : Nat) (path title : String) : ExportPlanItem :=
  let mdRaw := env.readNote path
  let item0 : ExportPlanItem := {
    filePath := path
    title := title
    selected := true
    action := .create
    reason := "No mapping found."
    hasSnapshot := false
    hasDiff := false
    intendedParentFilePath := intendedParent
    depth := depth
    applyLabelChanges := true
    labelsDesired := env.desiredLabels mdRaw }
  let mdPublish := env.stripTags mdRaw
  let item :=
    match mapped with
    | some m =>
      if ¬ m.pageId = "" then
        match env.getPageWithStorage m.pageId with
        | .ok page => planCase1Found env item0 m path title mdPublish page
        | .error e => planCase1Err env item0 m path mdPublish e
      else planCase2 env item0 updateExisting spaceKey path title mdPublish
    | none => planCase2 env item0 updateExisting spaceKey path title mdPublish
  if item.action = .skip then { item with selected := false } else item

/-- The unchanged-versus-baseline condition of the plan builder, as the spec
states it: the diff baseline (the storage snapshot if present, else the
normalized remote body) equals the normalized rendered body, the remote title
equals the local title, and the remote label set equals the desired label set
(both canonicalized by `uniqSorted`, membership-wise). -/
def planBaselineUnchanged (env : PlanEnv) (m : MappingEntry)
    (path title : String) (page : RemotePage) (labelsRaw : List String) : Prop :=
  (env.readStorageSnapshot path).getD (normaliseStorage page.storageValue)
      = normaliseStorage (env.convert (env.stripTags (env.readNote path)) path) ∧
  page.title.getD m.title = title ∧
  (∀ s : String, s ∈ uniqSorted labelsRaw ↔
    s ∈ uniqSorted (env.desiredLabels (env.readNote path)))

/-- A concrete environment used by the plan-builder witnesses: one remote
page P1 whose storage and title match the locally rendered content. -/
def planWitEnv : PlanEnv := {
  readNote := fun _ => "note"
  convert := fun _ _ => "<p>x</p>"
  stripTags := fun s => s
  desiredLabels := fun _ => ["l1"]
  getPageWithStorage := fun pid =>
    if pid = "P1" then
      Except.ok { id := "P1", title := some "T", storageValue := "<p>x</p>",
                  webui := none }
    else Except.error "GET content failed: 404 Not Found"
  getLabels := fun _ => Except.ok ["l1"]
  searchPageByTitle := fun _ _ => Except.ok none
  hasSnapshot := fun _ => false
  readSnapshot := fun _ => none
  readStorageSnapshot := fun _ => none
  toWebUrl := fun s => s }

/-- A mapping entry pointing at P1, used by the plan-builder witnesses. -/
def planWitEntry : MappingEntry :=
  { filePath := "a.md", pageId := "P1", title := "T", webui := none,
    updatedAt := "t0" }

/-- A mapping entry pointing at a deleted page, used by the C4 witness. -/
def planWitEntryGone : MappingEntry :=
  { filePath := "a.md", pageId := "P9", title := "T", webui := none,
    updatedAt := "t0" }

/-- The metadata environment of the C7 scenario: A and B both link to C,
C links to nothing, the export set is Root, A, B, C and traversal visits A
before B. -/
def c7Env : VaultMeta := {
  links := fun f =>
    if f = "A.md" then ["C"]
    else if f = "B.md" then ["C"]
    else if f = "Root.md" then ["A", "B"]
    else []
  resolveDest := fun l _ =>
    if l = "A" then some ("A.md", "md")
    else if l = "B" then some ("B.md", "md")
    else if l = "C" then some ("C.md", "md")
    else none
  fmParent := fun _ => none }

def c7Files : List String := ["Root.md", "A.md", "B.md", "C.md"]

/-! ## src/exporter.ts — `exportInternal`, `ensurePageForFile`,
`updatePageContentWithLinks`

The remote client is modelled by deterministic response functions returning
`Except`; every remote call a run makes is also recorded in an operation
trace, so that temporal claims about which calls a run issues are statable.
The vault is the same `VaultMeta` the hierarchy component uses, plus per-file
metadata (`readNote`, `basenameOf`) and the precomputed result of
`buildExportSet` (whose graph walk over the metadata cache is not needed by
any claim).  `toPublishMarkdown` and the storage converter are kept
uninterpreted environment functions (the converter receives the mapping
store, which the link-resolution context built by `makeCtx` consults): the
claims about the orchestrator hold for all of their values.  Snapshot writes
are local-disk effects; the storage snapshot, the only one the exporter reads
back, is kept in the run state and the markdown snapshot is dropped.
`syncLabelsForPage` and `uploadEmbedsForPage` are modelled as single fallible
remote operations, because the claims concern only whether their failures
abort the run.  Progress notices and `mapping.save()` (persistence of the
in-memory store) have no observable effect in the model and are dropped. -/

inductive RemoteOp
  | update (pageId title storage : String)
  | search (spaceKey title : String)
  | create (spaceKey title : String) (parentId : Option String)
      (storage : String)
  | getPage (pageId : String)
  | labels (pageId : String)
  | attach (filePath pageId : String)
deriving DecidableEq

structure ExpSettings where
  dryRun : Bool
  updateExisting : Bool
  spaceKey : String
  parentPageId : String
  childPagesUnderRoot : Bool
deriving DecidableEq

structure ExportEnv where
  vault : VaultMeta
  readNote : String → String
  basenameOf : String → String
  exportSet : List String
  publish : String → String
  convert : String → String → MappingStore → String
  updatePage : String → String → String →
    Except String (String × Option String)
  searchPageByTitle : String → String → Except String (Option FoundPage)
  createPage : String → String → Option String → String →
    Except String (String × Option String)
  getPageWithStorage : String → Except String RemotePage
  syncLabels : String → String → Except String Unit
  uploadEmbeds : String → String → Except String Unit
  now : String

structure ExpState where
  mapping : MappingStore
  snaps : List (String × String)
  trace : List RemoteOp
deriving DecidableEq

def recOp (s : ExpState) (op : RemoteOp) : ExpState :=
  { s with trace := s.trace ++ [op] }

def snapGet (snaps : List (String × String)) (k : String) : Option String :=
  (List.find? (fun e => e.1 = k) snaps).map (·.2)

def snapSet : List (String × String) → String → String →
    List (String × String)
  | [], k, v => [(k, v)]
  | (k0, v0) :: rest, k, v =>
    if k0 = k then (k0, v) :: rest else (k0, v0) :: snapSet rest k v

/-- JavaScript truthiness of an optional page id (`!pageId`: absent or
empty). -/
def optIdTruthy : Option String → Bool
  | some s => ¬ s = ""
  | none => false

/-- `shouldApplyLabels`: default true; false only when the per-item map has
an explicit `false`. -/
def shouldApplyLabels (al : Option (List (String × Bool)))
    (p : String) : Bool :=
  match al with
  | none => true
  | some entries =>
    match List.find? (fun e => e.1 = p) entries with
    | some e => e.2
    | none => true

/-- A remote call inside `try { … } catch { log }`: the call is issued and
recorded, and its outcome — success or failure — leaves the run state the
same, because the catch block only logs. -/
def tryOp (s : ExpState) (op : RemoteOp) (r : Except String Unit) : ExpState :=
  let s2 := recOp s op
  match r with
  | .ok _ => s2
  | .error _ => s2

/-- `Exporter.ensurePageForFile` (pass 1, current exporter.ts): update the
mapped page when possible (dropping the mapping on a 404-class failure),
otherwise search by title and update the hit, otherwise create; then record
the mapping, write snapshots unless dry-run, and run the caught label and
attachment calls.  A thrown error is the `Except.error` result. -/
def ensurePageForFile (env : ExportEnv) (st : ExpSettings)
    (al : Option (List (String × Bool)))
    (parentIdOverride : Option String) (f : String) (s0 : ExpState) :
    Except String ExpState :=
  let title := env.basenameOf f
  let mdOriginal := env.readNote f
  let mdPublish := env.publish mdOriginal
  let storageRaw := env.convert mdPublish f s0.mapping
  let storageNorm := normaliseStorage storageRaw
  let step1 : Except String (ExpState × Option String × Option String) :=
    match storeGet s0.mapping f with
    | some entry =>
      if ¬ entry.pageId = "" ∧ st.updateExisting then
        let s1 := recOp s0 (.update entry.pageId title storageRaw)
        match env.updatePage entry.pageId title storageRaw with
        | .ok r => .ok (s1, some r.1, r.2)
        | .error msg =>
          if containsSub msg.data " 404".data then
            .ok ({ s1 with mapping := storeRemove s1.mapping f }, none, none)
          else .error msg
      else .ok (s0, none, none)
    | none => .ok (s0, none, none)
  match step1 with
  | .error msg => .error msg
  | .ok (s1, pid1, web1) =>
    let step2 : Except String (ExpState × Option String × Option String) :=
      if ¬ optIdTruthy pid1 = true ∧ st.updateExisting then
        let s2 := recOp s1 (.search st.spaceKey title)
        match env.searchPageByTitle st.spaceKey title with
        | .error msg => .error msg
        | .ok (some found) =>
          let s3 := recOp s2 (.update found.id title storageRaw)
          match env.updatePage found.id title storageRaw with
          | .ok r => .ok (s3, some r.1, r.2)
          | .error msg => .error msg
        | .ok none => .ok (s2, pid1, web1)
      else .ok (s1, pid1, web1)
    match step2 with
    | .error msg => .error msg
    | .ok (s2, pid2, web2) =>
      let step3 : Except String (ExpState × Option String × Option String) :=
        if ¬ optIdTruthy pid2 = true then
          let parentId := match parentIdOverride with
            | some x => some x
            | none =>
              if st.parentPageId = "" then none else some st.parentPageId
          let s3 := recOp s2 (.create st.spaceKey title parentId storageRaw)
          match env.createPage st.spaceKey title parentId storageRaw with
          | .ok r => .ok (s3, some r.1, r.2)
          | .error msg => .error msg
        else .ok (s2, pid2, web2)
      match step3 with
      | .error msg => .error msg
      | .ok (s3, pid3, web3) =>
        match pid3 with
        | none => .error ("Failed to resolve pageId for " ++ f)
        | some pidV =>
          if pidV = "" then .error ("Failed to resolve pageId for " ++ f)
          else
            let newEntry : MappingEntry :=
              { filePath := f, pageId := pidV, title := title,
                webui := web3, updatedAt := env.now }
            let s4 := { s3 with mapping := storeSet s3.mapping newEntry }
            let s5 := if st.dryRun then s4
              else { s4 with snaps := snapSet s4.snaps f storageNorm }
            let s6 := if shouldApplyLabels al f then
                tryOp s5 (.labels pidV) (env.syncLabels pidV mdOriginal)
              else s5
            .ok (tryOp s6 (.attach f pidV) (env.uploadEmbeds f pidV))

/-- The per-file parent override computed by pass 1 of `exportInternal`. -/
def parentOverrideFor (st : ExpSettings) (mode : HierarchyMode)
    (rootPath : String) (rootParent : Option String) (pm : ParentMap)
    (mapping : MappingStore) (f : String) : Option String :=
  if f = rootPath then rootParent
  else
    let parentPath := match pmGet pm f with
      | some (some p) => p
      | _ => rootPath
    if mode = HierarchyMode.flat then
      match storeGet mapping rootPath with
      | some re =>
        if st.childPagesUnderRoot ∧ ¬ re.pageId = "" then some re.pageId
        else rootParent
      | none => rootParent
    else
      match storeGet mapping parentPath with
      | some pe => some pe.pageId
      | none => rootParent

/-- The pass-1 loop of `exportInternal`: no try/catch around
`ensurePageForFile`, so an error ends the fold. -/
def pass1Go (env : ExportEnv) (st : ExpSettings)
    (al : Option (List (String × Bool))) (mode : HierarchyMode)
    (rootPath : String) (rootParent : Option String) (pm : ParentMap) :
    List String → ExpState → Except String ExpState
  | [], s => .ok s
  | f :: rest, s =>
    match ensurePageForFile env st al
        (parentOverrideFor st mode rootPath rootParent pm s.mapping f)
        f s with
    | .ok s2 => pass1Go env st al mode rootPath rootParent pm rest s2
    | .error msg => .error msg

/-- `Exporter.updatePageContentWithLinks` (pass 2): skip unmapped files,
fetch the page (404 drops the mapping and returns, other errors are
rethrown), compare against the snapshot baseline (falling back to the remote
body) and the trimmed titles, then either only refresh labels and snapshots
or update the page (404 drops the mapping, other errors are rethrown) and
record the refreshed mapping entry. -/
def updatePageContentWithLinks (env : ExportEnv) (st : ExpSettings)
    (al : Option (List (String × Bool))) (f : String) (s0 : ExpState) :
    Except String ExpState :=
  match storeGet s0.mapping f with
  | none => .ok s0
  | some entry =>
    if entry.pageId = "" then .ok s0
    else
      let desiredTitle := env.basenameOf f
      let mdOriginal := env.readNote f
      let mdPublish := env.publish mdOriginal
      let newStorageRaw := env.convert mdPublish f s0.mapping
      let newStorageNorm := normaliseStorage newStorageRaw
      let s1 := recOp s0 (.getPage entry.pageId)
      match env.getPageWithStorage entry.pageId with
      | .error msg =>
        if containsSub msg.data " 404".data then
          .ok { s1 with mapping := storeRemove s1.mapping f }
        else .error msg
      | .ok pg =>
        let existingTitle := (pg.title).getD ""
        let existingStorageNorm := normaliseStorage pg.storageValue
        let baseline := snapGet s1.snaps f
        let bodyUnchanged :=
          (baseline.getD existingStorageNorm) = newStorageNorm
        let titleUnchanged := trimS existingTitle = trimS desiredTitle
        if bodyUnchanged ∧ titleUnchanged then
          let s2 := if shouldApplyLabels al f then
              tryOp s1 (.labels entry.pageId)
                (env.syncLabels entry.pageId mdOriginal)
            else s1
          .ok { s2 with snaps := snapSet s2.snaps f newStorageNorm }
        else
          let s2 := recOp s1 (.update entry.pageId desiredTitle newStorageRaw)
          match env.updatePage entry.pageId desiredTitle newStorageRaw with
          | .error msg =>
            if containsSub msg.data " 404".data then
              .ok { s2 with mapping := storeRemove s2.mapping f }
            else .error msg
          | .ok _ =>
            let s3 := if shouldApplyLabels al f then
                tryOp s2 (.labels entry.pageId)
                  (env.syncLabels entry.pageId mdOriginal)
              else s2
            let s4 := { s3 with snaps := snapSet s3.snaps f newStorageNorm }
            let newEntry : MappingEntry :=
              { entry with title := desiredTitle, updatedAt := env.now }
            .ok { s4 with mapping := storeSet s4.mapping newEntry }

/-- The pass-2 loop of `exportInternal`: no try/catch, an error ends the
fold. -/
def pass2Go (env : ExportEnv) (st : ExpSettings)
    (al : Option (List (String × Bool))) :
    List String → ExpState → Except String ExpState
  | [], s => .ok s
  | f :: rest, s =>
    match updatePageContentWithLinks env st al f s with
    | .ok s2 => pass2Go env st al rest s2
    | .error msg => .error msg

/-- The children adjacency of `orderByParentMap`, a JavaScript `Map` of
insertion-ordered lists. -/
def childrenAdd : List (String × List String) → String → String →
    List (String × List String)
  | [], k, v => [(k, [v])]
  | (k0, l) :: rest, k, v =>
    if k0 = k then (k0, l ++ [v]) :: rest
    else (k0, l) :: childrenAdd rest k v

def childrenOf (ch : List (String × List String)) (k : String) :
    List String :=
  match List.find? (fun e => e.1 = k) ch with
  | some e => e.2
  | none => []

/-- The recursive `walk` of `orderByParentMap` as a fueled explicit-stack
depth-first traversal: visit, emit files, then the sorted children
left-to-right.  The fuel exceeds the total number of pushes, which is
bounded by one plus the number of child edges. -/
def walkStack (children : List (String × List String))
    (fileKeys : List String) :
    Nat → List String → List String → List String →
    List String × List String
  | 0, _, visited, out => (out, visited)
  | _ + 1, [], visited, out => (out, visited)
  | fuel + 1, p :: stack, visited, out =>
    if p ∈ visited then walkStack children fileKeys fuel stack visited out
    else
      let out2 := if p ∈ fileKeys then out ++ [p] else out
      walkStack children fileKeys fuel (childrenOf children p ++ stack)
        (p :: visited) out2

/-- `Exporter.orderByParentMap`: root-first depth-first order over the
parent map, children sorted by `localeCompare`, then the unvisited files in
sorted order. -/
def orderByParentMap (rootPath : String) (files : List String)
    (pm : ParentMap) : List String :=
  let fileKeys := dedupFirstGo [] files
  let children := files.foldl (fun ch f =>
    match pmGet pm f with
    | some (some par) => childrenAdd ch par f
    | _ => ch) []
  let children := children.map (fun kv => (kv.1, sortLe strLe kv.2))
  let start := if rootPath ∈ fileKeys then
      walkStack children fileKeys (files.length + 2) [rootPath] [] []
    else ([], [])
  let remaining :=
    sortLe strLe (fileKeys.filter (fun p => ¬ p ∈ start.2))
  (remaining.foldl (fun acc p =>
    walkStack children fileKeys (files.length + 2) [p] acc.2 acc.1)
    (start.1, start.2)).1

/-- `Exporter.exportInternal`: load mapping, build and filter the export
set, ensure the root is present, compute hierarchy and order, run pass 1
(no per-document try/catch), and unless dry-run, run pass 2. -/
def exportInternal (env : ExportEnv) (st : ExpSettings)
    (mode : HierarchyMode) (policy : ManyToManyPolicy) (rootPath : String)
    (selectedPaths : Option (List String))
    (al : Option (List (String × Bool))) (m0 : MappingStore)
    (snaps0 : List (String × String)) : Except String ExpState :=
  let files := env.exportSet
  let filtered := match selectedPaths with
    | some sel => files.filter (fun f => f ∈ sel)
    | none => files
  let inSet := if rootPath ∈ filtered then filtered else rootPath :: filtered
  let pm := (buildHierarchy env.vault rootPath inSet mode policy).parentPathByPath
  let ordered := orderByParentMap rootPath inSet pm
  if ordered.length = 0 then
    .ok { mapping := m0, snaps := snaps0, trace := [] }
  else
    let rootParent :=
      if st.parentPageId = "" then none else some st.parentPageId
    match pass1Go env st al mode rootPath rootParent pm ordered
        { mapping := m0, snaps := snaps0, trace := [] } with
    | .error msg => .error msg
    | .ok s1 =>
      if st.dryRun then .ok s1
      else pass2Go env st al ordered s1

/-- A create or update call to the remote content service. -/
def isContentWrite : RemoteOp → Bool
  | .update _ _ _ => true
  | .create _ _ _ _ => true
  | _ => false

/-- Concrete one-note vault for evaluating the dry-run claim. -/
def c1Env : ExportEnv :=
  { vault :=
      { links := fun _ => [], resolveDest := fun _ _ => none,
        fmParent := fun _ => none },
    readNote := fun _ => "hello",
    basenameOf := fun _ => "Root",
    exportSet := ["Root.md"],
    publish := fun s => s,
    convert := fun md _ _ => md,
    updatePage := fun _ _ _ => .error "unused",
    searchPageByTitle := fun _ _ => .ok none,
    createPage := fun _ _ _ _ => .ok ("1", none),
    getPageWithStorage := fun _ => .error "unused",
    syncLabels := fun _ _ => .ok (),
    uploadEmbeds := fun _ _ => .ok (),
    now := "t" }

def c1Settings : ExpSettings :=
  { dryRun := true, updateExisting := false, spaceKey := "S",
    parentPageId := "", childPagesUnderRoot := false }

/-- Concrete two-note vault whose root create call fails with a non-404
error. -/
def c2Env : ExportEnv :=
  { vault :=
      { links := fun _ => [], resolveDest := fun _ _ => none,
        fmParent := fun _ => none },
    readNote := fun _ => "hello",
    basenameOf := fun f => if f = "Root.md" then "Root" else "A",
    exportSet := ["Root.md", "A.md"],
    publish := fun s => s,
    convert := fun md _ _ => md,
    updatePage := fun _ _ _ => .error "unused",
    searchPageByTitle := fun _ _ => .ok none,
    createPage := fun _ t _ _ =>
      if t = "Root" then .error "boom 500" else .ok ("9", none),
    getPageWithStorage := fun _ => .error "unused",
    syncLabels := fun _ _ => .ok (),
    uploadEmbeds := fun _ _ => .ok (),
    now := "t" }

def c2Settings : ExpSettings :=
  { dryRun := false, updateExisting := false, spaceKey := "S",
    parentPageId := "", childPagesUnderRoot := false }

/-! ## Theorems -/

/-- The no-consecutive-hyphens relation on adjacent characters. -/
def noDD (a b : Char) : Prop := ¬(a = '-' ∧ b = '-')

theorem collapseDashesGo_subset (l : List Char) :
    ∀ (b : Bool) (c : Char), c ∈ collapseDashesGo b l → c ∈ l := by
  induction l with
  | nil => intro b c h; simp [collapseDashesGo] at h
  | cons a t ih =>
    intro b c h
    by_cases ha : a = '-'
    · subst ha
      cases b with
      | true =>
        simp only [collapseDashesGo, if_pos rfl, if_pos rfl] at h
        exact List.mem_cons_of_mem _ (ih _ _ h)
      | false =>
        simp only [collapseDashesGo, if_pos rfl] at h
        rcases List.mem_cons.mp h with h | h
        · exact h ▸ List.mem_cons_self _ _
        · exact List.mem_cons_of_mem _ (ih _ _ h)
    · simp only [collapseDashesGo, if_neg ha] at h
      rcases List.mem_cons.mp h with h | h
      · exact h ▸ List.mem_cons_self _ _
      · exact List.mem_cons_of_mem _ (ih _ _ h)

theorem collapseDashesGo_head_true (l : List Char) :
    (collapseDashesGo true l).head? ≠ some '-' := by
  induction l with
  | nil => simp [collapseDashesGo]
  | cons a t ih =>
    by_cases ha : a = '-'
    · subst ha; simpa [collapseDashesGo] using ih
    · simp [collapseDashesGo, ha]

theorem collapseDashesGo_chain (l : List Char) :
    ∀ b : Bool, List.Chain' noDD (collapseDashesGo b l) := by
  induction l with
  | nil => intro b; simp [collapseDashesGo]
  | cons a t ih =>
    intro b
    by_cases ha : a = '-'
    · subst ha
      cases b with
      | true => simpa [collapseDashesGo] using ih true
      | false =>
        simp only [collapseDashesGo, if_pos rfl]
        refine List.chain'_cons'.mpr ⟨?_, ih true⟩
        intro y hy
        intro hcon
        exact collapseDashesGo_head_true t (hy ▸ hcon.2 ▸ rfl)
    · simp only [collapseDashesGo, if_neg ha]
      refine List.chain'_cons'.mpr ⟨?_, ih false⟩
      intro y hy hcon
      exact ha hcon.1

theorem head?_dropLast_some {l : List Char} {c : Char}
    (h : l.dropLast.head? = some c) : l.head? = some c := by
  match l with
  | [] => simp [List.dropLast] at h
  | [a] => simp [List.dropLast] at h
  | a :: b :: t => simpa [List.dropLast] using h

theorem chain'_dropLast {l : List Char} (h : List.Chain' noDD l) :
    List.Chain' noDD l.dropLast := by
  have : l.dropLast = l.take (l.length - 1) := (List.dropLast_eq_take l)
  rw [this]
  exact h.take _

theorem stripEdgeDashes_chain {l : List Char} (h : List.Chain' noDD l) :
    List.Chain' noDD (stripEdgeDashes l) := by
  unfold stripEdgeDashes
  by_cases h1 : l.head? = some '-'
  · simp only [if_pos h1]
    by_cases h2 : l.tail.getLast? = some '-'
    · simp only [if_pos h2]; exact chain'_dropLast h.tail
    · simp only [if_neg h2]; exact h.tail
  · simp only [if_neg h1]
    by_cases h2 : l.getLast? = some '-'
    · simp only [if_pos h2]; exact chain'_dropLast h
    · simp only [if_neg h2]; exact h

theorem stripEdgeDashes_subset (l : List Char) :
    ∀ c, c ∈ stripEdgeDashes l → c ∈ l := by
  intro c hc
  unfold stripEdgeDashes at hc
  by_cases h1 : l.head? = some '-'
  · simp only [if_pos h1] at hc
    by_cases h2 : l.tail.getLast? = some '-'
    · simp only [if_pos h2] at hc
      exact List.mem_of_mem_tail (List.dropLast_sublist _ |>.subset hc)
    · simp only [if_neg h2] at hc
      exact List.mem_of_mem_tail hc
  · simp only [if_neg h1] at hc
    by_cases h2 : l.getLast? = some '-'
    · simp only [if_pos h2] at hc
      exact List.dropLast_sublist _ |>.subset hc
    · simpa [if_neg h2] using hc

theorem stripEdgeDashes_head {l : List Char} (h : List.Chain' noDD l) :
    (stripEdgeDashes l).head? ≠ some '-' := by
  unfold stripEdgeDashes
  by_cases h1 : l.head? = some '-'
  · have htail : l.tail.head? ≠ some '-' := by
      intro hcon
      rcases l with _ | ⟨a, t⟩
      · simp at h1
      · have ha : a = '-' := by simpa using h1
        subst ha
        rcases t with _ | ⟨b, t'⟩
        · simp at hcon
        · simp only [List.tail_cons, List.head?_cons, Option.some.injEq] at hcon
          exact (List.chain'_cons'.mp h).1 b (by simp) ⟨rfl, hcon⟩
    simp only [if_pos h1]
    by_cases h2 : l.tail.getLast? = some '-'
    · simp only [if_pos h2]
      intro hcon
      exact htail (head?_dropLast_some hcon)
    · simp only [if_neg h2]; exact htail
  · simp only [if_neg h1]
    by_cases h2 : l.getLast? = some '-'
    · simp only [if_pos h2]
      intro hcon
      exact h1 (head?_dropLast_some hcon)
    · simp only [if_neg h2]; exact h1

theorem head?_take_255 (l : List Char) : (l.take 255).head? = l.head? := by
  cases l <;> simp

/-- C10: for every input string, `toConfluenceLabel` returns a string of
length at most 255 containing only lowercase ASCII letters, digits and
hyphens, that never begins with a hyphen and never contains two consecutive
hyphens. -/
theorem C10_toConfluenceLabel_wellformed (s : String) :
    (toConfluenceLabel s).length ≤ 255 ∧
    (∀ c ∈ (toConfluenceLabel s).data, isLabelKeep c = true) ∧
    (toConfluenceLabel s).data.head? ≠ some '-' ∧
    List.Chain' noDD (toConfluenceLabel s).data := by
  unfold toConfluenceLabel
  set s5 := (((jsTrim s.data).map lowerAscii).dropWhile (· = '#')).map
      (fun c => if c = '/' then '-' else c) |>.map
      (fun c => if isLabelKeep c then c else '-') with hs5
  have hmem5 : ∀ c ∈ s5, isLabelKeep c = true := by
    intro c hc
    rw [hs5] at hc
    rcases List.mem_map.mp hc with ⟨x, _, hx⟩
    by_cases hk : isLabelKeep x
    · rw [if_pos hk] at hx; exact hx ▸ hk
    · rw [if_neg hk] at hx; exact hx ▸ (by decide)
  have hchain : List.Chain' noDD (stripEdgeDashes (collapseDashes s5)) :=
    stripEdgeDashes_chain (collapseDashesGo_chain s5 false)
  refine ⟨?_, ?_, ?_, ?_⟩
  · show (List.take 255 _).length ≤ 255
    simp
  · intro c hc
    have hc1 : c ∈ stripEdgeDashes (collapseDashes s5) := List.take_subset _ _ hc
    have hc2 : c ∈ collapseDashes s5 := stripEdgeDashes_subset _ _ hc1
    exact hmem5 c (collapseDashesGo_subset s5 false c hc2)
  · show (List.take 255 _).head? ≠ some '-'
    rw [head?_take_255]
    exact stripEdgeDashes_head (collapseDashesGo_chain s5 false)
  · exact hchain.take _

/-- C5: the content normalizer is not idempotent.  On the storage text
a&nbsp;&nbsp;b a single application substitutes the two entity references by
two adjacent plain spaces, because the entity pass runs after the
space-collapse pass; a second application collapses them.  The spec claims
normaliseStorage (normaliseStorage x) = normaliseStorage x for every x. -/
theorem C5_normaliseStorage_not_idempotent :
    normaliseStorage "a&nbsp;&nbsp;b" = "a  b" ∧
    normaliseStorage (normaliseStorage "a&nbsp;&nbsp;b") = "a b" ∧
    normaliseStorage (normaliseStorage "a&nbsp;&nbsp;b") ≠
      normaliseStorage "a&nbsp;&nbsp;b" :=
  ⟨by decide, by decide, by decide⟩

theorem storeGet_nil (q : String) : storeGet [] q = none := rfl

theorem storeGet_cons (k : String) (v : MappingEntry) (rest : MappingStore)
    (q : String) :
    storeGet ((k, v) :: rest) q = if k = q then some v else storeGet rest q := by
  by_cases h : k = q <;> simp [storeGet, List.find?, h]

theorem storeRemove_cons (k : String) (v : MappingEntry) (rest : MappingStore)
    (p : String) :
    storeRemove ((k, v) :: rest) p =
      if k = p then storeRemove rest p
      else (k, v) :: storeRemove rest p := by
  by_cases h : k = p <;> simp [storeRemove, List.filter, h]

theorem storeGet_remove (st : MappingStore) (p q : String) :
    storeGet (storeRemove st p) q = if q = p then none else storeGet st q := by
  induction st with
  | nil => by_cases h : q = p <;> simp [storeRemove, storeGet_nil, h]
  | cons kv rest ih =>
    obtain ⟨k, v⟩ := kv
    rw [storeRemove_cons]
    by_cases hkp : k = p
    · rw [if_pos hkp, ih, storeGet_cons]
      by_cases hq : q = p
      · simp [hq]
      · have : ¬ k = q := fun h => hq (h ▸ hkp)
        simp [hq, this]
    · rw [if_neg hkp, storeGet_cons, storeGet_cons]
      by_cases hkq : k = q
      · have hqp : ¬ q = p := fun h => hkp (hkq.trans h)
        simp [hkq, hqp]
      · rw [if_neg hkq, if_neg hkq, ih]

theorem storeGet_set (st : MappingStore) (e : MappingEntry) (q : String) :
    storeGet (storeSet st e) q =
      if q = e.filePath then some e else storeGet st q := by
  induction st with
  | nil =>
    by_cases hq : q = e.filePath
    · simp [storeSet, storeGet_cons, hq]
    · have hq2 : ¬ e.filePath = q := fun h => hq h.symm
      simp [storeSet, storeGet_cons, storeGet_nil, hq, hq2]
  | cons kv rest ih =>
    obtain ⟨k, v⟩ := kv
    show storeGet (if k = e.filePath then (k, e) :: rest
        else (k, v) :: storeSet rest e) q = _
    by_cases hk : k = e.filePath
    · rw [if_pos hk, storeGet_cons, storeGet_cons]
      by_cases hkq : k = q
      · have hqe : q = e.filePath := hkq.symm.trans hk
        simp [hkq, hqe]
      · have hqe : ¬ q = e.filePath := fun h => hkq (hk.trans h.symm)
        simp [hkq, hqe]
    · rw [if_neg hk, storeGet_cons, storeGet_cons, ih]
      by_cases hkq : k = q
      · have hqe : ¬ q = e.filePath := fun h => hk (hkq.trans h)
        simp [hkq, hqe]
      · simp [hkq]

/-- C9: after a rename notification with an existing mapped entry under the
old path, the old key is gone and the new key carries the same remote page
id; with no entry under the old path the handler is a no-op on the map. -/
theorem C9_rename_migration (st : MappingStore) (e : MappingEntry)
    (oldPath newPath bn now : String)
    (hne : oldPath ≠ newPath) (hnp : newPath ≠ "")
    (hold : storeGet st oldPath = some e) (hpid : e.pageId ≠ "") :
    storeGet (renameHandler st true newPath bn "md" oldPath now) oldPath
        = none ∧
    (storeGet (renameHandler st true newPath bn "md" oldPath now)
        newPath).map MappingEntry.pageId = some e.pageId ∧
    (∀ st2 : MappingStore, storeGet st2 oldPath = none →
        renameHandler st2 true newPath bn "md" oldPath now = st2) := by
  have hrh : renameHandler st true newPath bn "md" oldPath now =
      storeSet (storeRemove st oldPath)
        { e with filePath := newPath, title := bn, updatedAt := now } := by
    simp [renameHandler, hnp, hold, hpid]
  refine ⟨?_, ?_, ?_⟩
  · rw [hrh, storeGet_set, storeGet_remove]
    simp [hne]
  · rw [hrh, storeGet_set]
    simp
  · intro st2 hnone
    simp [renameHandler, hnp, hnone]

/-- C7 counterexample: in links mode with the firstSeen policy, when A and B
both link to C and traversal visits A before B, the parent of C is the root,
not A (a document's parent is its own first outbound link target; incoming
links are irrelevant). -/
theorem C7_counterexample_parent_of_C_is_root :
    pmGet (buildHierarchy c7Env "Root.md" c7Files HierarchyMode.links
        ManyToManyPolicy.firstSeen).parentPathByPath "C.md"
      = some (some "Root.md") ∧
    ¬ (pmGet (buildHierarchy c7Env "Root.md" c7Files HierarchyMode.links
        ManyToManyPolicy.firstSeen).parentPathByPath "C.md"
      = some (some "A.md")) :=
  ⟨by decide, by decide⟩

/-- C7 amended: in links mode, under every tie-break policy, each document is
parented to its own first outbound link target inside the export set; in the
scenario where A and B both link to C and C has no outbound links, C is
parented to the root while A and B are parented to C. -/
theorem C7_links_parent_is_own_first_link (p : ManyToManyPolicy) :
    pmGet (buildHierarchy c7Env "Root.md" c7Files HierarchyMode.links
        p).parentPathByPath "C.md" = some (some "Root.md") ∧
    pmGet (buildHierarchy c7Env "Root.md" c7Files HierarchyMode.links
        p).parentPathByPath "A.md" = some (some "C.md") ∧
    pmGet (buildHierarchy c7Env "Root.md" c7Files HierarchyMode.links
        p).parentPathByPath "B.md" = some (some "C.md") := by
  cases p <;> exact ⟨by decide, by decide, by decide⟩

theorem pmGet_nil (q : String) : pmGet [] q = none := rfl

theorem pmGet_cons (k : String) (v : Option String) (rest : ParentMap)
    (q : String) :
    pmGet ((k, v) :: rest) q = if k = q then some v else pmGet rest q := by
  by_cases h : k = q <;> simp [pmGet, List.find?, h]

theorem pmGet_pmSet (m : ParentMap) (k : String) (v : Option String)
    (q : String) :
    pmGet (pmSet m k v) q = if q = k then some v else pmGet m q := by
  induction m with
  | nil =>
    by_cases hq : q = k
    · simp [pmSet, pmGet_cons, hq]
    · have hq2 : ¬ k = q := fun h => hq h.symm
      simp [pmSet, pmGet_cons, pmGet_nil, hq, hq2]
  | cons kv rest ih =>
    obtain ⟨k0, v0⟩ := kv
    show pmGet (if k0 = k then (k0, v) :: rest else (k0, v0) :: pmSet rest k v)
        q = _
    by_cases hk : k0 = k
    · rw [if_pos hk, pmGet_cons, pmGet_cons]
      by_cases hkq : k0 = q
      · have hqe : q = k := hkq.symm.trans hk
        simp [hkq, hqe]
      · have hqe : ¬ q = k := fun h => hkq (hk.trans h.symm)
        simp [hkq, hqe]
    · rw [if_neg hk, pmGet_cons, pmGet_cons, ih]
      by_cases hkq : k0 = q
      · have hqe : ¬ q = k := fun h => hk (hkq.trans h)
        simp [hkq, hqe]
      · simp [hkq]

theorem pm_mem_keys (m : ParentMap) (x : String) :
    (pmGet m x).isSome = true ↔ x ∈ pmKeys m := by
  induction m with
  | nil => simp [pmGet, pmKeys]
  | cons kv rest ih =>
    obtain ⟨k, v⟩ := kv
    rw [pmGet_cons]
    by_cases hk : k = x
    · simp [pmKeys, hk]
    · have hk2 : ¬ x = k := fun h => hk h.symm
      simp only [if_neg hk, pmKeys, List.map_cons, List.mem_cons]
      rw [pmKeys] at ih
      simp [ih, hk2]

theorem pmGet_entry_mem {m : ParentMap} {x : String} {v : Option String}
    (h : pmGet m x = some v) : (x, v) ∈ m := by
  induction m with
  | nil => simp [pmGet] at h
  | cons kv rest ih =>
    obtain ⟨k, w⟩ := kv
    rw [pmGet_cons] at h
    by_cases hk : k = x
    · rw [if_pos hk] at h
      have hw : w = v := by injection h
      subst hk; subst hw
      exact List.mem_cons_self _ _
    · rw [if_neg hk] at h
      exact List.mem_cons_of_mem _ (ih h)

theorem pmKeys_pmSet_of_mem (m : ParentMap) (k : String) (v : Option String)
    (h : k ∈ pmKeys m) : pmKeys (pmSet m k v) = pmKeys m := by
  induction m with
  | nil => simp [pmKeys] at h
  | cons kv rest ih =>
    obtain ⟨k0, v0⟩ := kv
    show pmKeys (if k0 = k then (k0, v) :: rest
        else (k0, v0) :: pmSet rest k v) = _
    by_cases hk : k0 = k
    · rw [if_pos hk]; rfl
    · rw [if_neg hk]
      have hkr : k ∈ pmKeys rest := by
        simp only [pmKeys, List.map_cons, List.mem_cons] at h
        rcases h with h | h
        · exact absurd h.symm hk
        · exact h
      show k0 :: pmKeys (pmSet rest k v) = k0 :: pmKeys rest
      rw [ih hkr]

theorem pmKeys_pmSet_of_not_mem (m : ParentMap) (k : String)
    (v : Option String) (h : ¬ k ∈ pmKeys m) :
    pmKeys (pmSet m k v) = pmKeys m ++ [k] := by
  induction m with
  | nil => rfl
  | cons kv rest ih =>
    obtain ⟨k0, v0⟩ := kv
    have hk : ¬ k0 = k := by
      intro hc
      exact h (by simp [pmKeys, hc])
    show pmKeys (if k0 = k then (k0, v) :: rest
        else (k0, v0) :: pmSet rest k v) = _
    rw [if_neg hk]
    have hkr : ¬ k ∈ pmKeys rest := fun hc => h (by simp [pmKeys] at hc ⊢; exact Or.inr hc)
    show k0 :: pmKeys (pmSet rest k v) = (k0 :: pmKeys rest) ++ [k]
    rw [ih hkr]
    rfl

theorem pmKeys_length (m : ParentMap) : (pmKeys m).length = m.length := by
  simp [pmKeys]

/-- Lookup in a value-transformed map whose keys are untouched. -/
theorem pmGet_map_vals (h : String → Option String → Option String)
    (m : ParentMap) (x : String) :
    pmGet (m.map (fun kv => (kv.1, h kv.1 kv.2))) x
      = (pmGet m x).map (h x) := by
  induction m with
  | nil => rfl
  | cons kv rest ih =>
    obtain ⟨k, v⟩ := kv
    simp only [List.map_cons]
    rw [pmGet_cons, pmGet_cons]
    by_cases hk : k = x
    · subst hk; simp
    · simp [hk, ih]

theorem good_of_null {m : ParentMap} {x : String}
    (h : pmGet m x = some none) : GoodChain m x :=
  ⟨1, by simp [reachesNullIn, h]⟩

theorem good_step_back {m : ParentMap} {x p : String}
    (h : pmGet m x = some (some p)) (hp : GoodChain m p) : GoodChain m x := by
  rcases hp with ⟨k, hk⟩
  exact ⟨k + 1, by simp [reachesNullIn, h, hk]⟩

theorem good_forward {m : ParentMap} {x p : String}
    (h : pmGet m x = some (some p)) (hx : GoodChain m x) : GoodChain m p := by
  rcases hx with ⟨k, hk⟩
  cases k with
  | zero => simp [reachesNullIn] at hk
  | succ k' =>
    refine ⟨k', ?_⟩
    simpa [reachesNullIn, h] using hk

theorem not_good_of_missing {m : ParentMap} {x : String}
    (h : pmGet m x = none) : ¬ GoodChain m x := by
  rintro ⟨k, hk⟩
  cases k with
  | zero => simp [reachesNullIn] at hk
  | succ k' => simp [reachesNullIn, h] at hk

theorem chainAt_comp {m : ParentMap} {x y z : String} {a b : Nat}
    (ha : chainAt m x a = some y) (hb : chainAt m y b = some z) :
    chainAt m x (a + b) = some z := by
  induction b generalizing z with
  | zero =>
    simp only [chainAt] at hb
    injection hb with hb
    subst hb
    simpa using ha
  | succ b' ih =>
    simp only [chainAt] at hb
    cases hz : chainAt m y b' with
    | none => rw [hz] at hb; simp at hb
    | some w =>
      rw [hz] at hb
      simp only [Option.some_bind] at hb
      have := ih hz
      show chainAt m x (a + (b' + 1)) = some z
      have harr : a + (b' + 1) = (a + b') + 1 := by omega
      rw [harr]
      simp only [chainAt, this, Option.bind_some]
      exact hb

theorem reach_decompose {m : ParentMap} :
    ∀ (c : Nat) {x y : String} {k : Nat}, chainAt m x c = some y →
      reachesNullIn m x k = true → reachesNullIn m y (k - c) = true := by
  intro c
  induction c with
  | zero =>
    intro x y k hc hr
    simp only [chainAt] at hc
    injection hc with hc
    subst hc
    simpa using hr
  | succ c' ih =>
    intro x y k hc hr
    simp only [chainAt] at hc
    cases hz : chainAt m x c' with
    | none => rw [hz] at hc; simp at hc
    | some z =>
      rw [hz] at hc
      simp only [Option.some_bind] at hc
      have hrz := ih hz hr
      unfold parentOf at hc
      cases hg : pmGet m z with
      | none => rw [hg] at hc; simp at hc
      | some vo =>
        cases vo with
        | none => rw [hg] at hc; simp at hc
        | some p =>
          rw [hg] at hc
          injection hc with hc
          subst hc
          cases hkc : k - c' with
          | zero => rw [hkc] at hrz; simp [reachesNullIn] at hrz
          | succ kk =>
            rw [hkc] at hrz
            simp only [reachesNullIn, hg] at hrz
            have : k - (c' + 1) = kk := by omega
            rw [this]
            exact hrz

theorem cycle_not_good {m : ParentMap} {x : String} {c : Nat}
    (hc1 : 1 ≤ c) (hcy : chainAt m x c = some x) :
    ∀ k, reachesNullIn m x k = true → False := by
  intro k
  induction k using Nat.strong_induction_on with
  | _ k ih =>
    intro hr
    have hk1 : 1 ≤ k := by
      cases k with
      | zero => simp [reachesNullIn] at hr
      | succ _ => omega
    have hdec := reach_decompose c hcy hr
    by_cases hck : c ≤ k
    · by_cases hek : c = k
      · subst hek
        simp [reachesNullIn] at hdec
      · exact ih (k - c) (by omega) hdec
    · have : k - c = 0 := by omega
      rw [this] at hdec
      simp [reachesNullIn] at hdec

/-- Rewriting one non-root node to point at the root preserves chain
termination. -/
theorem reach_set_root {m : ParentMap} {y root : String}
    (hroot : pmGet m root = some none) (hy : ¬ y = root) :
    ∀ (k : Nat) (x : String), reachesNullIn m x k = true →
      GoodChain (pmSet m y (some root)) x := by
  intro k
  induction k with
  | zero => intro x hr; simp [reachesNullIn] at hr
  | succ k' ih =>
    intro x hr
    have hrootnew : pmGet (pmSet m y (some root)) root = some none := by
      rw [pmGet_pmSet, if_neg (fun h => hy h.symm)]
      exact hroot
    by_cases hxy : x = y
    · subst hxy
      refine ⟨2, ?_⟩
      have hx : pmGet (pmSet m x (some root)) x = some (some root) := by
        rw [pmGet_pmSet, if_pos rfl]
      simp [reachesNullIn, hx, hrootnew]
    · have hsame : pmGet (pmSet m y (some root)) x = pmGet m x := by
        rw [pmGet_pmSet, if_neg hxy]
      simp only [reachesNullIn] at hr
      cases hg : pmGet m x with
      | none => rw [hg] at hr; simp at hr
      | some vo =>
        cases vo with
        | none => exact good_of_null (hsame.trans hg)
        | some p =>
          rw [hg] at hr
          exact good_step_back (hsame.trans hg) (ih p hr)

theorem good_set_root {m : ParentMap} {y root : String}
    (hroot : pmGet m root = some none) (hy : ¬ y = root) {x : String}
    (h : GoodChain m x) : GoodChain (pmSet m y (some root)) x := by
  rcases h with ⟨k, hk⟩
  exact reach_set_root hroot hy k x hk

theorem PMInv.get_vals {root : String} {files : List String} {m : ParentMap}
    (hI : PMInv root files m) {x p : String}
    (h : pmGet m x = some (some p)) : p ∈ pmKeys m ∧ ¬ p = "" :=
  hI.vals_keys (x, some p) (pmGet_entry_mem h) p rfl

/-- The pigeonhole core: a terminating chain visits distinct keys, so it
terminates within the number of keys. -/
theorem reach_aux {root : String} {files : List String} {m : ParentMap}
    (hI : PMInv root files m) :
    ∀ (N : Nat) (x : String) (E : List String),
      E.Nodup → (∀ e ∈ E, e ∈ pmKeys m) → x ∈ pmKeys m → ¬ x ∈ E →
      (∀ e ∈ E, ∃ j, 1 ≤ j ∧ chainAt m e j = some x) →
      (pmKeys m).length ≤ E.length + N →
      GoodChain m x → reachesNullIn m x N = true := by
  intro N
  induction N with
  | zero =>
    intro x E hnd hEk hxk hxE _ hlen _
    exfalso
    have hsub : (x :: E) ⊆ pmKeys m := by
      intro a ha
      rcases List.mem_cons.mp ha with ha | ha
      · exact ha ▸ hxk
      · exact hEk a ha
    have hnd2 : (x :: E).Nodup := List.nodup_cons.mpr ⟨hxE, hnd⟩
    have := (hnd2.subperm hsub).length_le
    simp only [List.length_cons] at this
    omega
  | succ N' ih =>
    intro x E hnd hEk hxk hxE hchain hlen hg
    cases hgx : pmGet m x with
    | none =>
      exact absurd hg (not_good_of_missing hgx)
    | some vo =>
      cases vo with
      | none => simp [reachesNullIn, hgx]
      | some p =>
        have hchain1 : chainAt m x 1 = some p := by
          simp [chainAt, parentOf, hgx]
        have hpx : ¬ p = x := by
          intro hpx
          subst hpx
          exact cycle_not_good (le_refl 1) hchain1 _
            (Classical.choose_spec hg)
        have hpE : ¬ p ∈ E := by
          intro hpE
          rcases hchain p hpE with ⟨j, hj1, hjc⟩
          have : chainAt m x (1 + j) = some x := chainAt_comp hchain1 hjc
          exact cycle_not_good (by omega) this _ (Classical.choose_spec hg)
        have hpk := (hI.get_vals hgx).1
        have hgp : GoodChain m p := good_forward hgx hg
        have hr := ih p (x :: E) (List.nodup_cons.mpr ⟨hxE, hnd⟩)
          (by
            intro e he
            rcases List.mem_cons.mp he with he | he
            · exact he ▸ hxk
            · exact hEk e he)
          hpk
          (by
            intro hc
            rcases List.mem_cons.mp hc with hc | hc
            · exact hpx hc
            · exact hpE hc)
          (by
            intro e he
            rcases List.mem_cons.mp he with he | he
            · exact ⟨1, le_refl 1, he ▸ hchain1⟩
            · rcases hchain e he with ⟨j, hj1, hjc⟩
              exact ⟨j + 1, by omega, chainAt_comp hjc hchain1⟩)
          (by simp only [List.length_cons]; omega)
          hgp
        simp [reachesNullIn, hgx, hr]

theorem mem_insertLe {α : Type} (le : α → α → Bool) (x y : α) (l : List α) :
    y ∈ insertLe le x l ↔ y = x ∨ y ∈ l := by
  induction l with
  | nil => simp [insertLe]
  | cons a t ih =>
    by_cases h : le x a
    · simp [insertLe, h]
    · simp only [insertLe, if_neg h, List.mem_cons, ih]
      tauto

theorem mem_sortLe {α : Type} (le : α → α → Bool) (x : α) (l : List α) :
    x ∈ sortLe le l ↔ x ∈ l := by
  induction l with
  | nil => simp [sortLe]
  | cons a t ih =>
    simp only [sortLe, mem_insertLe, List.mem_cons, ih]

theorem mem_dedupFirstGo (x : String) (l : List String) :
    ∀ seen : List String, x ∈ dedupFirstGo seen l ↔ x ∈ l ∧ x ∉ seen := by
  induction l with
  | nil => intro seen; simp [dedupFirstGo]
  | cons y rest ih =>
    intro seen
    by_cases hy : y ∈ seen
    · simp only [dedupFirstGo, if_pos hy, ih, List.mem_cons]
      constructor
      · rintro ⟨h1, h2⟩; exact ⟨Or.inr h1, h2⟩
      · rintro ⟨h1 | h1, h2⟩
        · exact absurd (h1 ▸ hy) h2
        · exact ⟨h1, h2⟩
    · simp only [dedupFirstGo, if_neg hy, List.mem_cons, ih]
      constructor
      · rintro (h | ⟨h1, h2⟩)
        · exact ⟨Or.inl h, h ▸ hy⟩
        · exact ⟨Or.inr h1, fun hc => h2 (Or.inr hc)⟩
      · rintro ⟨h1 | h1, h2⟩
        · exact Or.inl h1
        · by_cases hxy : x = y
          · exact Or.inl hxy
          · exact Or.inr ⟨h1, by simp [hxy, h2]⟩

theorem mem_uniqSorted (x : String) (xs : List String) :
    x ∈ uniqSorted xs ↔ x ∈ xs.map trimS ∧ ¬ x = "" := by
  simp only [uniqSorted, mem_sortLe, mem_dedupFirstGo, List.mem_filter,
    List.not_mem_nil, not_false_iff, and_true, decide_eq_true_eq]

theorem head?_dropWhile_not {p : Char → Bool} {l : List Char} {c : Char}
    (h : (l.dropWhile p).head? = some c) : p c = false := by
  induction l with
  | nil => simp [List.dropWhile] at h
  | cons a t ih =>
    by_cases ha : p a
    · rw [List.dropWhile_cons_of_pos ha] at h
      exact ih h
    · rw [List.dropWhile_cons_of_neg ha] at h
      simp only [List.head?_cons, Option.some.injEq] at h
      subst h
      exact Bool.eq_false_iff.mpr ha

theorem dropWhile_eq_self_of_head {p : Char → Bool} {l : List Char}
    (h : ∀ c, l.head? = some c → p c = false) : l.dropWhile p = l := by
  cases l with
  | nil => rfl
  | cons a t =>
    have := h a rfl
    rw [List.dropWhile_cons_of_neg (by simp [this])]

theorem getLast?_dropWhile_not {p : Char → Bool} {l : List Char} {c : Char}
    (h : (l.dropWhile p).getLast? = some c) : l.getLast? = some c := by
  induction l with
  | nil => simp [List.dropWhile] at h
  | cons a t ih =>
    by_cases ha : p a
    · rw [List.dropWhile_cons_of_pos ha] at h
      have h2 := ih h
      cases t with
      | nil => simp at h2
      | cons b t' => rw [List.getLast?_cons_cons]; exact h2
    · rwa [List.dropWhile_cons_of_neg (by simpa using ha)] at h

theorem jsTrim_head_not {l : List Char} {c : Char}
    (h : (jsTrim l).head? = some c) : isJsSpace c = false := by
  unfold jsTrim at h
  rw [List.head?_reverse] at h
  have h2 := getLast?_dropWhile_not h
  rw [List.getLast?_reverse] at h2
  exact head?_dropWhile_not h2

theorem jsTrim_getLast_not {l : List Char} {c : Char}
    (h : (jsTrim l).getLast? = some c) : isJsSpace c = false := by
  unfold jsTrim at h
  rw [List.getLast?_reverse] at h
  exact head?_dropWhile_not h

theorem jsTrim_idem (l : List Char) : jsTrim (jsTrim l) = jsTrim l := by
  have h1 : (jsTrim l).dropWhile isJsSpace = jsTrim l :=
    dropWhile_eq_self_of_head (fun c hc => jsTrim_head_not hc)
  have h2 : (jsTrim l).reverse.dropWhile isJsSpace = (jsTrim l).reverse := by
    refine dropWhile_eq_self_of_head (fun c hc => ?_)
    rw [List.head?_reverse] at hc
    exact jsTrim_getLast_not hc
  show ((((jsTrim l).dropWhile isJsSpace).reverse.dropWhile isJsSpace)).reverse
      = jsTrim l
  rw [h1, h2, List.reverse_reverse]

theorem trimS_idem (x : String) : trimS (trimS x) = trimS x :=
  congrArg String.mk (jsTrim_idem x.data)

theorem mem_uniqSorted_fixed {x : String} {xs : List String}
    (h : x ∈ uniqSorted xs) : trimS x = x ∧ ¬ x = "" := by
  rcases (mem_uniqSorted x xs).mp h with ⟨hm, hne⟩
  rcases List.mem_map.mp hm with ⟨y, _, hy⟩
  exact ⟨by rw [← hy, trimS_idem], hne⟩

theorem mem_uniqSorted_uniqSorted (x : String) (xs : List String) :
    x ∈ uniqSorted (uniqSorted xs) ↔ x ∈ uniqSorted xs := by
  constructor
  · intro h
    rcases (mem_uniqSorted x (uniqSorted xs)).mp h with ⟨hm, hne⟩
    rcases List.mem_map.mp hm with ⟨y, hy, hxy⟩
    have hf := mem_uniqSorted_fixed hy
    rw [← hxy, hf.1]
    exact hy
  · intro h
    have hf := mem_uniqSorted_fixed h
    refine (mem_uniqSorted x (uniqSorted xs)).mpr ⟨?_, hf.2⟩
    rcases hf with ⟨hfix, _⟩
    exact List.mem_map.mpr ⟨x, h, hfix⟩

theorem setDiff_changed_false_iff (ex de : List String) :
    (setDiff ex de).changed = false ↔
      (∀ s : String, s ∈ uniqSorted ex ↔ s ∈ uniqSorted de) := by
  unfold setDiff
  simp only [Bool.or_eq_false_iff, decide_eq_false_iff_not, not_lt,
    Nat.le_zero, List.length_eq_zero, List.filter_eq_nil_iff,
    Bool.not_eq_true', decide_eq_false_iff_not, not_not]
  constructor
  · rintro ⟨hAdd, hRem⟩ s
    exact ⟨fun hs => hRem s hs, fun hs => hAdd s hs⟩
  · intro h
    exact ⟨fun s hs => (h s).mpr hs, fun s hs => (h s).mp hs⟩

theorem planCase1Found_core (env : PlanEnv) (item0 : ExportPlanItem)
    (m : MappingEntry) (path title mdPublish : String) (page : RemotePage)
    (labelsRaw : List String)
    (hlab : env.getLabels page.id = Except.ok labelsRaw) :
    ((planCase1Found env item0 m path title mdPublish page).action =
      if (decide (¬ (env.readStorageSnapshot path).getD
              (normaliseStorage page.storageValue)
            = normaliseStorage (env.convert mdPublish path)) ||
          decide (¬ page.title.getD m.title = title) ||
          (setDiff (uniqSorted labelsRaw) item0.labelsDesired).changed : Bool)
      then PlanAction.update else PlanAction.skip) ∧
    ((planCase1Found env item0 m path title mdPublish page).selected =
      ((decide (¬ (env.readStorageSnapshot path).getD
              (normaliseStorage page.storageValue)
            = normaliseStorage (env.convert mdPublish path)) ||
          decide (¬ page.title.getD m.title = title) ||
          (setDiff (uniqSorted labelsRaw) item0.labelsDesired).changed : Bool))) := by
  unfold planCase1Found
  simp only [applyLabelStep, hlab]
  by_cases hsnap : env.hasSnapshot path = true <;>
  by_cases h1 : (env.readStorageSnapshot path).getD
      (normaliseStorage page.storageValue)
      = normaliseStorage (env.convert mdPublish path) <;>
  by_cases h2 : page.title.getD m.title = title <;>
  by_cases h3 : (setDiff (uniqSorted labelsRaw) item0.labelsDesired).changed
      = true <;>
  simp_all

/-- C3: for a mapped document whose remote page fetch (and label fetch)
succeeds, the plan action is skip with selected false exactly when baseline
content, title and label set are all unchanged, and update otherwise. -/
theorem C3_plan_skip_iff_unchanged (env : PlanEnv) (upd : Bool)
    (spaceKey : String) (m : MappingEntry) (ip : Option String) (dep : Nat)
    (path title : String) (page : RemotePage) (labelsRaw : List String)
    (hpid : ¬ m.pageId = "")
    (hfetch : env.getPageWithStorage m.pageId = Except.ok page)
    (hlab : env.getLabels page.id = Except.ok labelsRaw) :
    (((planItemForFile env upd spaceKey (some m) ip dep path title).action
          = PlanAction.skip ∧
      (planItemForFile env upd spaceKey (some m) ip dep path title).selected
          = false) ↔
      planBaselineUnchanged env m path title page labelsRaw) ∧
    (¬ planBaselineUnchanged env m path title page labelsRaw →
      (planItemForFile env upd spaceKey (some m) ip dep path title).action
          = PlanAction.update ∧
      (planItemForFile env upd spaceKey (some m) ip dep path title).selected
          = true) := by
  have hcore := planCase1Found_core env
    { filePath := path, title := title, selected := true,
      action := PlanAction.create, reason := "No mapping found.",
      hasSnapshot := false, hasDiff := false,
      intendedParentFilePath := ip, depth := dep, applyLabelChanges := true,
      labelsDesired := env.desiredLabels (env.readNote path) }
    m path title (env.stripTags (env.readNote path)) page labelsRaw hlab
  have hneed : ((decide (¬ (env.readStorageSnapshot path).getD
          (normaliseStorage page.storageValue)
        = normaliseStorage
            (env.convert (env.stripTags (env.readNote path)) path)) ||
      decide (¬ page.title.getD m.title = title) ||
      (setDiff (uniqSorted labelsRaw)
        (env.desiredLabels (env.readNote path))).changed) = false) ↔
      planBaselineUnchanged env m path title page labelsRaw := by
    rw [planBaselineUnchanged]
    have hlabel := setDiff_changed_false_iff (uniqSorted labelsRaw)
      (env.desiredLabels (env.readNote path))
    simp only [mem_uniqSorted_uniqSorted] at hlabel
    simp only [Bool.or_eq_false_iff, decide_eq_false_iff_not, not_not, hlabel,
      and_assoc]
  unfold planItemForFile
  simp only [hpid, not_false_iff, if_pos, hfetch, ite_true]
  rcases hcore with ⟨hact, hsel⟩
  dsimp only at hact hsel
  by_cases hn : (decide (¬ (env.readStorageSnapshot path).getD
          (normaliseStorage page.storageValue)
        = normaliseStorage
            (env.convert (env.stripTags (env.readNote path)) path)) ||
      decide (¬ page.title.getD m.title = title) ||
      (setDiff (uniqSorted labelsRaw)
        (env.desiredLabels (env.readNote path))).changed) = true
  · have hU : ¬ planBaselineUnchanged env m path title page labelsRaw := by
      intro hu
      rw [← hneed] at hu
      rw [hu] at hn
      exact Bool.false_ne_true hn
    have hPa : (planCase1Found env
        { filePath := path, title := title, selected := true,
          action := PlanAction.create, reason := "No mapping found.",
          hasSnapshot := false, hasDiff := false,
          intendedParentFilePath := ip, depth := dep,
          applyLabelChanges := true,
          labelsDesired := env.desiredLabels (env.readNote path) }
        m path title (env.stripTags (env.readNote path)) page).action
        = PlanAction.update := by rw [hact, if_pos hn]
    have hPs : (planCase1Found env
        { filePath := path, title := title, selected := true,
          action := PlanAction.create, reason := "No mapping found.",
          hasSnapshot := false, hasDiff := false,
          intendedParentFilePath := ip, depth := dep,
          applyLabelChanges := true,
          labelsDesired := env.desiredLabels (env.readNote path) }
        m path title (env.stripTags (env.readNote path)) page).selected
        = true := by rw [hsel, hn]
    rw [if_neg (by rw [hPa]; intro hc; exact PlanAction.noConfusion hc)]
    refine ⟨?_, fun _ => ⟨hPa, hPs⟩⟩
    constructor
    · intro hc
      rw [hPa] at hc
      exact absurd hc.1 (by intro hcc; exact PlanAction.noConfusion hcc)
    · intro hu
      exact absurd hu hU
  · have hn' : (decide (¬ (env.readStorageSnapshot path).getD
          (normaliseStorage page.storageValue)
        = normaliseStorage
            (env.convert (env.stripTags (env.readNote path)) path)) ||
      decide (¬ page.title.getD m.title = title) ||
      (setDiff (uniqSorted labelsRaw)
        (env.desiredLabels (env.readNote path))).changed) = false := by
      exact Bool.not_eq_true _ ▸ (by simpa using hn)
    have hU : planBaselineUnchanged env m path title page labelsRaw :=
      hneed.mp hn'
    have hPa : (planCase1Found env
        { filePath := path, title := title, selected := true,
          action := PlanAction.create, reason := "No mapping found.",
          hasSnapshot := false, hasDiff := false,
          intendedParentFilePath := ip, depth := dep,
          applyLabelChanges := true,
          labelsDesired := env.desiredLabels (env.readNote path) }
        m path title (env.stripTags (env.readNote path)) page).action
        = PlanAction.skip := by
      rw [hact, if_neg (fun hc => Bool.false_ne_true (hn'.symm.trans hc))]
    rw [if_pos hPa]
    exact ⟨⟨fun _ => hU, fun _ => ⟨hPa, rfl⟩⟩, fun hnu => absurd hU hnu⟩

/-- Witness for C3 at a concrete environment: remote page P1 matches the
rendered content, titles agree and labels agree, so the skip side of the
equivalence fires. -/
theorem C3_plan_skip_iff_unchanged_witness :
    (((planItemForFile planWitEnv true "SP" (some planWitEntry) none 0
          "a.md" "T").action = PlanAction.skip ∧
      (planItemForFile planWitEnv true "SP" (some planWitEntry) none 0
          "a.md" "T").selected = false) ↔
      planBaselineUnchanged planWitEnv planWitEntry "a.md" "T"
        { id := "P1", title := some "T", storageValue := "<p>x</p>",
          webui := none } ["l1"]) ∧
    (¬ planBaselineUnchanged planWitEnv planWitEntry "a.md" "T"
        { id := "P1", title := some "T", storageValue := "<p>x</p>",
          webui := none } ["l1"] →
      (planItemForFile planWitEnv true "SP" (some planWitEntry) none 0
          "a.md" "T").action = PlanAction.update ∧
      (planItemForFile planWitEnv true "SP" (some planWitEntry) none 0
          "a.md" "T").selected = true) :=
  C3_plan_skip_iff_unchanged planWitEnv true "SP" planWitEntry none 0
    "a.md" "T"
    { id := "P1", title := some "T", storageValue := "<p>x</p>",
      webui := none } ["l1"] (by decide) rfl rfl

/-- C4: for a mapped document whose remote fetch fails with a 404-class
error, the plan action is recreate, selected by default, and the stale id is
retained on the item. -/
theorem C4_plan_recreate_on_404 (env : PlanEnv) (upd : Bool)
    (spaceKey : String) (m : MappingEntry) (ip : Option String) (dep : Nat)
    (path title msg : String)
    (hpid : ¬ m.pageId = "")
    (hfetch : env.getPageWithStorage m.pageId = Except.error msg)
    (h404 : containsSub msg.data " 404".data = true) :
    (planItemForFile env upd spaceKey (some m) ip dep path title).action
        = PlanAction.recreate ∧
    (planItemForFile env upd spaceKey (some m) ip dep path title).selected
        = true ∧
    (planItemForFile env upd spaceKey (some m) ip dep path title).pageId
        = some m.pageId := by
  unfold planItemForFile
  simp only [hpid, not_false_iff, if_pos, hfetch]
  unfold planCase1Err
  rw [if_pos h404]
  simp

/-- Witness for C4 at a concrete environment: the stale mapping P9 hits a
404-class failure and the item becomes a selected recreate carrying P9. -/
theorem C4_plan_recreate_on_404_witness :
    (planItemForFile planWitEnv true "SP" (some planWitEntryGone) none 0
        "a.md" "T").action = PlanAction.recreate ∧
    (planItemForFile planWitEnv true "SP" (some planWitEntryGone) none 0
        "a.md" "T").selected = true ∧
    (planItemForFile planWitEnv true "SP" (some planWitEntryGone) none 0
        "a.md" "T").pageId = some planWitEntryGone.pageId :=
  C4_plan_recreate_on_404 planWitEnv true "SP" planWitEntryGone none 0
    "a.md" "T" "GET content failed: 404 Not Found"
    (by decide) rfl (by decide)

/-- The final fixup of the plan loop leaves the action unchanged. -/
theorem fixup_action (it : ExportPlanItem) :
    (if it.action = PlanAction.skip then { it with selected := false }
     else it).action = it.action := by
  split <;> rfl

theorem planCase1Found_action_ne (env : PlanEnv) (item0 : ExportPlanItem)
    (m : MappingEntry) (path title mdPublish : String) (page : RemotePage) :
    (planCase1Found env item0 m path title mdPublish page).action
      ≠ PlanAction.conflict := by
  unfold planCase1Found
  dsimp only
  split_ifs <;> simp

theorem planCase1Err_action_ne (env : PlanEnv) (item0 : ExportPlanItem)
    (m : MappingEntry) (path mdPublish msg : String) :
    (planCase1Err env item0 m path mdPublish msg).action
      ≠ PlanAction.conflict := by
  unfold planCase1Err
  split <;> simp

theorem planCase2Found_action_cases (env : PlanEnv) (item0 : ExportPlanItem)
    (path mdPublish : String) (found : FoundPage) (page : RemotePage) :
    (planCase2Found env item0 path mdPublish found page).action
        = PlanAction.update ∨
    (planCase2Found env item0 path mdPublish found page).action
        = PlanAction.skip := by
  unfold planCase2Found
  dsimp only
  split_ifs <;> simp

theorem planCase2_action_ne (env : PlanEnv) (item0 : ExportPlanItem)
    (upd : Bool) (spaceKey path title mdPublish : String)
    (h0 : item0.action ≠ PlanAction.conflict) :
    (planCase2 env item0 upd spaceKey path title mdPublish).action
      ≠ PlanAction.conflict := by
  unfold planCase2
  by_cases hupd : upd = true
  · simp only [hupd, if_true, reduceIte]
    cases hs : env.searchPageByTitle spaceKey title with
    | error e => simp
    | ok fo =>
      cases fo with
      | none => simp
      | some found =>
        by_cases hid : ¬ found.id = ""
        · simp only [hid, if_pos, reduceIte]
          cases hp : env.getPageWithStorage found.id with
          | ok page =>
            rcases planCase2Found_action_cases env item0 path mdPublish
              found page with h | h <;> simp [h]
          | error e => simp
        · simp only [if_neg hid]
          simp
  · have : upd = false := by simpa using hupd
    subst this
    simpa using h0

/-- Witness environment for the C8 counterexample: no mapping, a title
search hit whose page content differs from the rendered content. -/
def c8Env : PlanEnv := {
  readNote := fun _ => "note"
  convert := fun _ _ => "<p>x</p>"
  stripTags := fun s => s
  desiredLabels := fun _ => []
  getPageWithStorage := fun pid =>
    if pid = "P2" then
      Except.ok { id := "P2", title := some "T", storageValue := "<p>other</p>",
                  webui := none }
    else Except.error "GET content failed: 404 Not Found"
  getLabels := fun _ => Except.ok []
  searchPageByTitle := fun _ _ =>
    Except.ok (some { id := "P2", webui := none })
  hasSnapshot := fun _ => false
  readSnapshot := fun _ => none
  readStorageSnapshot := fun _ => none
  toWebUrl := fun s => s }

/-- C8 counterexample: for an unmapped document with title matching enabled
whose title search finds a page (the scope of the hit is never consulted by
the code), the plan item is a selected update, not an unselected conflict. -/
theorem C8_counterexample_title_hit_is_update :
    (planItemForFile c8Env true "SP" none none 0 "a.md" "T").action
        = PlanAction.update ∧
    (planItemForFile c8Env true "SP" none none 0 "a.md" "T").selected
        = true ∧
    ¬ ((planItemForFile c8Env true "SP" none none 0 "a.md" "T").action
        = PlanAction.conflict) := by
  refine ⟨by decide, by decide, by decide⟩

/-- C8 amended: a title-search hit is classified update or skip regardless of
any intended parent scope, and the plan builder never assigns the conflict
action to any item. -/
theorem C8_title_hit_never_conflict
    (env : PlanEnv) (spaceKey : String) (ip : Option String) (dep : Nat)
    (path title : String) (found : FoundPage) (page : RemotePage)
    (hfound : env.searchPageByTitle spaceKey title = Except.ok (some found))
    (hfid : ¬ found.id = "")
    (hfetch : env.getPageWithStorage found.id = Except.ok page) :
    ((planItemForFile env true spaceKey none ip dep path title).action
        = PlanAction.update ∨
      (planItemForFile env true spaceKey none ip dep path title).action
        = PlanAction.skip) ∧
    (∀ (env2 : PlanEnv) (upd2 : Bool) (sk2 : String)
      (mp2 : Option MappingEntry) (ip2 : Option String) (dep2 : Nat)
      (p2 t2 : String),
      (planItemForFile env2 upd2 sk2 mp2 ip2 dep2 p2 t2).action
        ≠ PlanAction.conflict) := by
  constructor
  · unfold planItemForFile
    dsimp only
    rw [fixup_action]
    unfold planCase2
    rw [if_pos rfl, hfound]
    dsimp only
    rw [if_pos hfid, hfetch]
    exact planCase2Found_action_cases env _ path
      (env.stripTags (env.readNote path)) found page
  · intro env2 upd2 sk2 mp2 ip2 dep2 p2 t2
    unfold planItemForFile
    dsimp only
    have hfix : ∀ it : ExportPlanItem,
        it.action ≠ PlanAction.conflict →
        (if it.action = PlanAction.skip then { it with selected := false }
         else it).action ≠ PlanAction.conflict := by
      intro it hit
      split <;> simpa using hit
    cases mp2 with
    | none =>
      exact hfix _ (planCase2_action_ne env2 _ upd2 sk2 p2 t2 _ (by simp))
    | some m2 =>
      by_cases hid2 : ¬ m2.pageId = ""
      · simp only [hid2, if_pos, reduceIte]
        cases hp2 : env2.getPageWithStorage m2.pageId with
        | ok page2 => exact hfix _ (planCase1Found_action_ne env2 _ m2 p2 t2 _ page2)
        | error e2 => exact hfix _ (planCase1Err_action_ne env2 _ m2 p2 _ e2)
      · simp only [if_neg hid2]
        exact hfix _ (planCase2_action_ne env2 _ upd2 sk2 p2 t2 _ (by simp))

/-- Witness for the amended C8 at the concrete environment of the
counterexample. -/
theorem C8_title_hit_never_conflict_witness :
    ((planItemForFile c8Env true "SP" none none 0 "a.md" "T").action
        = PlanAction.update ∨
      (planItemForFile c8Env true "SP" none none 0 "a.md" "T").action
        = PlanAction.skip) ∧
    (∀ (env2 : PlanEnv) (upd2 : Bool) (sk2 : String)
      (mp2 : Option MappingEntry) (ip2 : Option String) (dep2 : Nat)
      (p2 t2 : String),
      (planItemForFile env2 upd2 sk2 mp2 ip2 dep2 p2 t2).action
        ≠ PlanAction.conflict) :=
  C8_title_hit_never_conflict c8Env "SP" none 0 "a.md" "T"
    { id := "P2", webui := none }
    { id := "P2", title := some "T", storageValue := "<p>other</p>",
      webui := none }
    rfl (by decide) rfl

/-- Witness for C9 at a concrete store: a single entry under a.md with page
id 17 is migrated to b.md. -/
theorem C9_rename_migration_witness :
    let e : MappingEntry :=
      { filePath := "a.md", pageId := "17", title := "a", webui := none,
        updatedAt := "t0" }
    let st : MappingStore := [("a.md", e)]
    storeGet (renameHandler st true "b.md" "b" "md" "a.md" "t1") "a.md"
        = none ∧
    (storeGet (renameHandler st true "b.md" "b" "md" "a.md" "t1")
        "b.md").map MappingEntry.pageId = some "17" ∧
    (∀ st2 : MappingStore, storeGet st2 "a.md" = none →
        renameHandler st2 true "b.md" "b" "md" "a.md" "t1" = st2) :=
  C9_rename_migration [("a.md",
      { filePath := "a.md", pageId := "17", title := "a", webui := none,
        updatedAt := "t0" })]
    { filePath := "a.md", pageId := "17", title := "a", webui := none,
      updatedAt := "t0" }
    "a.md" "b.md" "b" "t1" (by decide) (by decide) (by rfl) (by decide)

/-! ## C6 — acyclicity of the hierarchy parent maps -/

theorem reach_mono {m : ParentMap} :
    ∀ {j k : Nat} {x : String}, j ≤ k → reachesNullIn m x j = true →
      reachesNullIn m x k = true := by
  intro j
  induction j with
  | zero => intro k x _ hr; simp [reachesNullIn] at hr
  | succ j ih =>
    intro k x hjk hr
    cases k with
    | zero => omega
    | succ k =>
      simp only [reachesNullIn] at hr ⊢
      cases hg : pmGet m x with
      | none => rw [hg] at hr; simp at hr
      | some vo =>
        cases vo with
        | none => rfl
        | some p =>
          rw [hg] at hr
          have hr2 : reachesNullIn m p j = true := hr
          show reachesNullIn m p k = true
          exact ih (by omega) hr2

theorem pmSet_mem (m : ParentMap) (k : String) (v : Option String) :
    ∀ kv ∈ pmSet m k v, kv = (k, v) ∨ kv ∈ m := by
  induction m with
  | nil =>
    intro kv hkv
    left
    simpa [pmSet] using hkv
  | cons kv0 rest ih =>
    obtain ⟨k0, v0⟩ := kv0
    intro kv hkv
    simp only [pmSet] at hkv
    by_cases hk : k0 = k
    · rw [if_pos hk] at hkv
      rcases List.mem_cons.mp hkv with h | h
      · left; rw [h, hk]
      · right; exact List.mem_cons_of_mem _ h
    · rw [if_neg hk] at hkv
      rcases List.mem_cons.mp hkv with h | h
      · right; rw [h]; exact List.mem_cons_self _ _
      · rcases ih kv h with h2 | h2
        · left; exact h2
        · right; exact List.mem_cons_of_mem _ h2

theorem pm_mem_keys_pmSet {m : ParentMap} {k : String} {v : Option String}
    {x : String} (hx : x ∈ pmKeys m) : x ∈ pmKeys (pmSet m k v) := by
  by_cases hmem : k ∈ pmKeys m
  · rw [pmKeys_pmSet_of_mem m k v hmem]; exact hx
  · rw [pmKeys_pmSet_of_not_mem m k v hmem]; exact List.mem_append_left _ hx

theorem pm_self_mem_keys_pmSet (m : ParentMap) (k : String)
    (v : Option String) : k ∈ pmKeys (pmSet m k v) := by
  by_cases hmem : k ∈ pmKeys m
  · rw [pmKeys_pmSet_of_mem m k v hmem]; exact hmem
  · rw [pmKeys_pmSet_of_not_mem m k v hmem]
    exact List.mem_append_right _ (by simp)

theorem pmKeys_pmSet_nodup (m : ParentMap) (k : String) (v : Option String)
    (h : (pmKeys m).Nodup) : (pmKeys (pmSet m k v)).Nodup := by
  by_cases hmem : k ∈ pmKeys m
  · rw [pmKeys_pmSet_of_mem m k v hmem]; exact h
  · rw [pmKeys_pmSet_of_not_mem m k v hmem]
    refine h.append (List.nodup_singleton k) ?_
    intro a ha hb
    have : a = k := by simpa using hb
    rw [this] at ha
    exact hmem ha

theorem root_mem_pmKeys {root : String} {m : ParentMap}
    (h : pmGet m root = some none) : root ∈ pmKeys m :=
  (pm_mem_keys m root).mp (by simp [h])

theorem PMInv_set_root {root : String} {files : List String} {m : ParentMap}
    {k : String} (hI : PMInv root files m) (hre : ¬ root = "")
    (hk : ¬ k = root) (hkf : k ∈ files) :
    PMInv root files (pmSet m k (some root)) := by
  have hrootk : root ∈ pmKeys m := root_mem_pmKeys hI.root_null
  refine ⟨pmKeys_pmSet_nodup m k (some root) hI.nodup, ?_, ?_, ?_⟩
  · intro x hx
    by_cases hmem : k ∈ pmKeys m
    · rw [pmKeys_pmSet_of_mem m k _ hmem] at hx
      exact hI.keys_sub x hx
    · rw [pmKeys_pmSet_of_not_mem m k _ hmem] at hx
      rcases List.mem_append.mp hx with hx | hx
      · exact hI.keys_sub x hx
      · right
        have : x = k := by simpa using hx
        rw [this]; exact hkf
  · intro kv hkv p hp
    rcases pmSet_mem m k (some root) kv hkv with heq | hmem
    · rw [heq] at hp
      have hpr : p = root := by
        have : some root = some p := hp
        injection this with h2
        exact h2.symm
      rw [hpr]
      exact ⟨pm_mem_keys_pmSet hrootk, hre⟩
    · obtain ⟨h1, h2⟩ := hI.vals_keys kv hmem p hp
      exact ⟨pm_mem_keys_pmSet h1, h2⟩
  · rw [pmGet_pmSet, if_neg (fun hc => hk hc.symm)]
    exact hI.root_null

theorem length_filter_le {α : Type} (p q : α → Bool)
    (hpq : ∀ x, p x = true → q x = true) :
    ∀ (l : List α), (l.filter p).length ≤ (l.filter q).length := by
  intro l
  induction l with
  | nil => simp
  | cons a rest ih =>
    by_cases hpa : p a = true
    · have hqa := hpq a hpa
      rw [List.filter_cons, List.filter_cons, if_pos hpa, if_pos hqa]
      simp only [List.length_cons]
      exact Nat.add_le_add_right ih 1
    · rw [List.filter_cons, if_neg hpa]
      by_cases hqa : q a = true
      · rw [List.filter_cons, if_pos hqa]
        simp only [List.length_cons]
        exact le_trans ih (Nat.le_succ _)
      · rw [List.filter_cons, if_neg hqa]
        exact ih

theorem length_filter_lt {α : Type} (p q : α → Bool)
    (hpq : ∀ x, p x = true → q x = true) :
    ∀ (l : List α) (a : α), a ∈ l → p a = false → q a = true →
      (l.filter p).length < (l.filter q).length := by
  intro l
  induction l with
  | nil => intro a ha _ _; simp at ha
  | cons b rest ih =>
    intro a ha hpa hqa
    rcases List.mem_cons.mp ha with hab | ha2
    · have hpb : ¬ p b = true := by rw [← hab, hpa]; simp
      have hqb : q b = true := by rw [← hab]; exact hqa
      rw [List.filter_cons, List.filter_cons, if_neg hpb, if_pos hqb]
      simp only [List.length_cons]
      exact Nat.lt_succ_of_le (length_filter_le p q hpq rest)
    · by_cases hpb : p b = true
      · have hqb := hpq b hpb
        rw [List.filter_cons, List.filter_cons, if_pos hpb, if_pos hqb]
        simp only [List.length_cons]
        exact Nat.succ_lt_succ (ih a ha2 hpa hqa)
      · rw [List.filter_cons, if_neg hpb]
        by_cases hqb : q b = true
        · rw [List.filter_cons, if_pos hqb]
          simp only [List.length_cons]
          exact Nat.lt_succ_of_lt (ih a ha2 hpa hqa)
        · rw [List.filter_cons, if_neg hqb]
          exact ih a ha2 hpa hqa

/-- One-step unfolding equation of the depth-first search. -/
theorem dfsVisit_succ (root : String) (fuel : Nat) (m : ParentMap)
    (visited visiting : List String) (n : String) :
    dfsVisit root (fuel + 1) m visited visiting n =
      if n ∈ visited then (m, visited)
      else if n ∈ visiting then (pmSet m n (some root), visited)
      else
        let step :=
          match pmGet m n with
          | some (some p) =>
            if ¬ p = "" then dfsVisit root fuel m visited (n :: visiting) p
            else (m, visited)
          | _ => (m, visited)
        (step.1, n :: step.2) := rfl

/-- The depth-first visit preserves the construction invariant, only redirects
parents to the root, keeps terminating chains terminating, and leaves the
visited node with a terminating chain, provided the fuel exceeds the number of
keys not yet on the visiting chain. -/
theorem dfsVisit_spec {root : String} {files : List String}
    (hre : ¬ root = "") :
    ∀ (fuel : Nat) (m : ParentMap) (visited visiting : List String)
      (n : String),
      PMInv root files m →
      (∀ v ∈ visited, GoodChain m v) →
      ¬ root ∈ visiting →
      n ∈ pmKeys m →
      ((pmKeys m).filter (fun x => decide (¬ x ∈ visiting))).length + 1
        ≤ fuel →
      DfsPost root files m visited visiting n
        (dfsVisit root fuel m visited visiting n) := by
  intro fuel
  induction fuel with
  | zero =>
    intro m visited visiting n _ _ _ _ hfuel
    exact absurd hfuel (by omega)
  | succ fuel ih =>
    intro m visited visiting n hI hvd hrv hn hfuel
    rw [dfsVisit_succ]
    by_cases h1 : n ∈ visited
    · rw [if_pos h1]
      exact ⟨hI, rfl, fun x => Or.inl rfl, fun x h => h, hvd, fun v hv => hv,
        hvd n h1, fun _ => h1⟩
    · rw [if_neg h1]
      by_cases h2 : n ∈ visiting
      · rw [if_pos h2]
        have hnr : ¬ n = root := fun hc => hrv (hc ▸ h2)
        have hnf : n ∈ files := (hI.keys_sub n hn).resolve_left hnr
        have hI2 : PMInv root files (pmSet m n (some root)) :=
          PMInv_set_root hI hre hnr hnf
        have hkeys : pmKeys (pmSet m n (some root)) = pmKeys m :=
          pmKeys_pmSet_of_mem m n _ hn
        have hmono : ∀ x, GoodChain m x →
            GoodChain (pmSet m n (some root)) x :=
          fun x hx => good_set_root hI.root_null hnr hx
        refine ⟨hI2, hkeys, ?_, hmono, fun v hv => hmono v (hvd v hv),
          fun v hv => hv, ?_, ?_⟩
        · intro x
          rw [pmGet_pmSet]
          by_cases hx : x = n
          · right; rw [if_pos hx]
          · left; rw [if_neg hx]
        · refine good_step_back ?_ (good_of_null hI2.root_null)
          rw [pmGet_pmSet, if_pos rfl]
        · intro hemp
          rw [hemp] at h2
          exact absurd h2 (List.not_mem_nil n)
      · rw [if_neg h2]
        cases hg : pmGet m n with
        | none =>
          have hsome := (pm_mem_keys m n).mpr hn
          rw [hg] at hsome
          simp at hsome
        | some vo =>
          cases vo with
          | none =>
            show DfsPost root files m visited visiting n (m, n :: visited)
            refine ⟨hI, rfl, fun x => Or.inl rfl, fun x h => h, ?_, ?_,
              good_of_null hg, fun _ => List.mem_cons_self _ _⟩
            · intro v hv
              rcases List.mem_cons.mp hv with hv | hv
              · rw [hv]; exact good_of_null hg
              · exact hvd v hv
            · intro v hv
              exact List.mem_cons_of_mem _ hv
          | some p =>
            by_cases hp : p = ""
            · exact absurd hp (hI.get_vals hg).2
            · show DfsPost root files m visited visiting n
                ((if ¬ p = "" then dfsVisit root fuel m visited
                    (n :: visiting) p
                  else (m, visited)).1,
                 n :: (if ¬ p = "" then dfsVisit root fuel m visited
                    (n :: visiting) p
                  else (m, visited)).2)
              rw [if_pos hp]
              have hnr : ¬ n = root := by
                intro hc
                rw [hc, hI.root_null] at hg
                exact Option.noConfusion (by injection hg)
              have hpk : p ∈ pmKeys m := (hI.get_vals hg).1
              have hfuel2 : ((pmKeys m).filter
                  (fun x => decide (¬ x ∈ n :: visiting))).length + 1
                    ≤ fuel := by
                have hlt := length_filter_lt
                  (fun x => decide (¬ x ∈ n :: visiting))
                  (fun x => decide (¬ x ∈ visiting))
                  (by
                    intro x hx
                    simp only [decide_eq_true_eq] at hx ⊢
                    intro hv
                    exact hx (List.mem_cons_of_mem _ hv))
                  (pmKeys m) n hn
                  (by simp)
                  (by simp [h2])
                omega
              have hspec := ih m visited (n :: visiting) p hI hvd
                (by
                  intro hc
                  rcases List.mem_cons.mp hc with hc | hc
                  · exact hnr hc.symm
                  · exact hrv hc)
                hpk hfuel2
              obtain ⟨sI, skeys, smut, smono, svis, svsub, sgood, _⟩ := hspec
              have hgn : GoodChain
                  (dfsVisit root fuel m visited (n :: visiting) p).1 n := by
                rcases smut n with hsame | hroot2
                · exact good_step_back (hsame.trans hg) sgood
                · exact good_step_back hroot2 (good_of_null sI.root_null)
              refine ⟨sI, skeys, smut, smono, ?_, ?_, hgn,
                fun _ => List.mem_cons_self _ _⟩
              · intro v hv
                rcases List.mem_cons.mp hv with hv | hv
                · rw [hv]; exact hgn
                · exact svis v hv
              · intro v hv
                exact List.mem_cons_of_mem _ (svsub v hv)

theorem ConstrInv_init (root : String) (files : List String) :
    ConstrInv root files (pmSet [] root none) := by
  refine ⟨?_, ?_, ?_, ?_⟩
  · show (pmKeys [(root, none)]).Nodup
    simp [pmKeys]
  · intro k hk
    left
    simpa [pmKeys, pmSet] using hk
  · intro kv hkv p hp
    have hkv2 : kv = (root, none) := by simpa [pmSet] using hkv
    rw [hkv2] at hp
    exact absurd hp (by simp)
  · show pmGet [(root, none)] root = some none
    simp [pmGet, List.find?]

theorem ConstrInv_set {root : String} {files : List String} {m : ParentMap}
    {f v : String} (hC : ConstrInv root files m) (hf : f ∈ files)
    (hfr : ¬ f = root) (hv : v = root ∨ v ∈ files) (hvne : ¬ v = "") :
    ConstrInv root files (pmSet m f (some v)) := by
  refine ⟨pmKeys_pmSet_nodup m f (some v) hC.nodup, ?_, ?_, ?_⟩
  · intro x hx
    by_cases hmem : f ∈ pmKeys m
    · rw [pmKeys_pmSet_of_mem m f _ hmem] at hx
      exact hC.keys_sub x hx
    · rw [pmKeys_pmSet_of_not_mem m f _ hmem] at hx
      rcases List.mem_append.mp hx with hx | hx
      · exact hC.keys_sub x hx
      · right
        have hxf : x = f := by simpa using hx
        rw [hxf]; exact hf
  · intro kv hkv p hp
    rcases pmSet_mem m f (some v) kv hkv with heq | hmem
    · rw [heq] at hp
      have h2 : some v = some p := hp
      injection h2 with h3
      rw [← h3]
      exact ⟨hv, hvne⟩
    · exact hC.vals_files kv hmem p hp
  · rw [pmGet_pmSet, if_neg (fun hc => hfr hc.symm)]
    exact hC.root_null

theorem ConstrInv_set_root_none {root : String} {files : List String}
    {m : ParentMap} (hC : ConstrInv root files m) :
    ConstrInv root files (pmSet m root none) ∧
    ∀ k ∈ pmKeys m, k ∈ pmKeys (pmSet m root none) := by
  have hrk : root ∈ pmKeys m := root_mem_pmKeys hC.root_null
  have hkeys : pmKeys (pmSet m root none) = pmKeys m :=
    pmKeys_pmSet_of_mem m root none hrk
  refine ⟨⟨?_, ?_, ?_, ?_⟩, ?_⟩
  · rw [hkeys]; exact hC.nodup
  · rw [hkeys]; exact hC.keys_sub
  · intro kv hkv p hp
    rcases pmSet_mem m root none kv hkv with heq | hmem
    · rw [heq] at hp
      exact absurd hp (by simp)
    · exact hC.vals_files kv hmem p hp
  · rw [pmGet_pmSet, if_pos rfl]
  · intro k hk
    rw [hkeys]
    exact hk

theorem ConstrInv_full {root : String} {files : List String} {m : ParentMap}
    (hC : ConstrInv root files m)
    (hfiles : ∀ f ∈ files, f ∈ pmKeys m) : PMInv root files m := by
  refine ⟨hC.nodup, hC.keys_sub, ?_, hC.root_null⟩
  intro kv hkv p hp
  obtain ⟨hor, hpne⟩ := hC.vals_files kv hkv p hp
  refine ⟨?_, hpne⟩
  rcases hor with h | h
  · rw [h]; exact root_mem_pmKeys hC.root_null
  · exact hfiles p h

/-- Invariant of the per-mode construction folds of `buildHierarchy`,
generalised over the per-file parent candidate. -/
theorem buildFold_inv {root : String} {files : List String}
    (cand : String → String) (g : ParentMap → String → ParentMap)
    (hg : ∀ acc f, g acc f = if f = root then acc
      else pmSet acc f (some (cand f)))
    (hre : ¬ root = "") (hne : ¬ "" ∈ files)
    (hcand : ∀ f, cand f = root ∨ cand f ∈ files) :
    ∀ (todo : List String) (acc : ParentMap),
      (∀ f ∈ todo, f ∈ files) →
      ConstrInv root files acc →
      ConstrInv root files (todo.foldl g acc) ∧
      (∀ k ∈ pmKeys acc, k ∈ pmKeys (todo.foldl g acc)) ∧
      (∀ f ∈ todo, f ∈ pmKeys (todo.foldl g acc)) ∧
      (∀ kv ∈ todo.foldl g acc, kv ∈ acc ∨ kv.2 = some (cand kv.1)) := by
  intro todo
  induction todo with
  | nil =>
    intro acc _ hC
    exact ⟨hC, fun k hk => hk, by simp, fun kv hkv => Or.inl hkv⟩
  | cons f rest ih =>
    intro acc htodo hC
    rw [List.foldl_cons, hg acc f]
    by_cases hf : f = root
    · rw [if_pos hf]
      obtain ⟨hC2, hmono, hall, hvals⟩ := ih acc
        (fun x hx => htodo x (List.mem_cons_of_mem _ hx)) hC
      refine ⟨hC2, hmono, ?_, hvals⟩
      intro x hx
      rcases List.mem_cons.mp hx with hx | hx
      · rw [hx, hf]
        exact hmono root (root_mem_pmKeys hC.root_null)
      · exact hall x hx
    · rw [if_neg hf]
      have hvne : ¬ cand f = "" := by
        rcases hcand f with h | h
        · rw [h]; exact hre
        · intro hc; rw [hc] at h; exact hne h
      have hC1 : ConstrInv root files (pmSet acc f (some (cand f))) :=
        ConstrInv_set hC (htodo f (List.mem_cons_self f rest)) hf
          (hcand f) hvne
      obtain ⟨hC2, hmono, hall, hvals⟩ := ih (pmSet acc f (some (cand f)))
        (fun x hx => htodo x (List.mem_cons_of_mem _ hx)) hC1
      refine ⟨hC2, ?_, ?_, ?_⟩
      · intro k hk
        exact hmono k (pm_mem_keys_pmSet hk)
      · intro x hx
        rcases List.mem_cons.mp hx with hx | hx
        · rw [hx]
          exact hmono f (pm_self_mem_keys_pmSet acc f (some (cand f)))
        · exact hall x hx
      · intro kv hkv
        rcases hvals kv hkv with hkv2 | hshape
        · rcases pmSet_mem acc f (some (cand f)) kv hkv2 with heq | hmem
          · right; subst heq; rfl
          · left; exact hmem
        · right; exact hshape

/-- One step of the first pass of `resolveManyToMany`, which defaults
falsy parents to the root, preserves the invariant and the key set. -/
theorem rmtmStep1_one {root : String} {files : List String} {acc : ParentMap}
    (hre : ¬ root = "") (hI : PMInv root files acc) {f : String}
    (hfmem : f ∈ files) :
    PMInv root files (if f = root then acc
      else match pmGet acc f with
        | some (some p) => if p = "" then pmSet acc f (some root) else acc
        | _ => pmSet acc f (some root)) ∧
    (∀ k ∈ pmKeys acc, k ∈ pmKeys (if f = root then acc
      else match pmGet acc f with
        | some (some p) => if p = "" then pmSet acc f (some root) else acc
        | _ => pmSet acc f (some root))) := by
  by_cases hf : f = root
  · rw [if_pos hf]
    exact ⟨hI, fun k hk => hk⟩
  · rw [if_neg hf]
    cases hgf : pmGet acc f with
    | none =>
      exact ⟨PMInv_set_root hI hre hf hfmem,
        fun k hk => pm_mem_keys_pmSet hk⟩
    | some vo =>
      cases vo with
      | none =>
        exact ⟨PMInv_set_root hI hre hf hfmem,
          fun k hk => pm_mem_keys_pmSet hk⟩
      | some p =>
        show PMInv root files (if p = "" then pmSet acc f (some root)
            else acc) ∧
          (∀ k ∈ pmKeys acc, k ∈ pmKeys (if p = ""
            then pmSet acc f (some root) else acc))
        by_cases hp : p = ""
        · rw [if_pos hp]
          exact ⟨PMInv_set_root hI hre hf hfmem,
            fun k hk => pm_mem_keys_pmSet hk⟩
        · rw [if_neg hp]
          exact ⟨hI, fun k hk => hk⟩

theorem rmtmStep1_inv {root : String} {files : List String}
    (g : ParentMap → String → ParentMap)
    (hg : ∀ acc f, g acc f = if f = root then acc
      else match pmGet acc f with
        | some (some p) => if p = "" then pmSet acc f (some root) else acc
        | _ => pmSet acc f (some root))
    (hre : ¬ root = "") :
    ∀ (todo : List String) (acc : ParentMap),
      (∀ f ∈ todo, f ∈ files) →
      PMInv root files acc →
      PMInv root files (todo.foldl g acc) ∧
      (∀ k ∈ pmKeys acc, k ∈ pmKeys (todo.foldl g acc)) := by
  intro todo
  induction todo with
  | nil =>
    intro acc _ hI
    exact ⟨hI, fun k hk => hk⟩
  | cons f rest ih =>
    intro acc htodo hI
    rw [List.foldl_cons, hg acc f]
    obtain ⟨hI1, hm1⟩ := rmtmStep1_one hre hI
      (htodo f (List.mem_cons_self f rest))
    obtain ⟨hI2, hm2⟩ := ih _
      (fun x hx => htodo x (List.mem_cons_of_mem _ hx)) hI1
    exact ⟨hI2, fun k hk => hm2 k (hm1 k hk)⟩

theorem pmKeys_map_vals (h : String → Option String → Option String)
    (m : ParentMap) :
    pmKeys (m.map (fun kv => (kv.1, h kv.1 kv.2))) = pmKeys m := by
  unfold pmKeys
  rw [List.map_map]
  rfl

theorem step2_funeq (root : String) :
    (fun kv : String × Option String =>
      if kv.2 = some kv.1 then (kv.1, some root) else kv)
    = (fun kv : String × Option String =>
      (kv.1, if kv.2 = some kv.1 then some root else kv.2)) := by
  funext kv
  obtain ⟨a, b⟩ := kv
  by_cases h : b = some a
  · simp [h]
  · simp [h]

/-- The self-parent-breaking map of `resolveManyToMany` preserves the
invariant and the key set. -/
theorem rmtmStep2_inv {root : String} {files : List String} {m : ParentMap}
    (hre : ¬ root = "") (hI : PMInv root files m) :
    PMInv root files (m.map (fun kv =>
      if kv.2 = some kv.1 then (kv.1, some root) else kv)) ∧
    pmKeys (m.map (fun kv =>
      if kv.2 = some kv.1 then (kv.1, some root) else kv)) = pmKeys m := by
  rw [step2_funeq root]
  have hkeys : pmKeys (m.map (fun kv =>
      (kv.1, if kv.2 = some kv.1 then some root else kv.2))) = pmKeys m :=
    pmKeys_map_vals (fun k v => if v = some k then some root else v) m
  refine ⟨⟨?_, ?_, ?_, ?_⟩, hkeys⟩
  · rw [hkeys]; exact hI.nodup
  · rw [hkeys]; exact hI.keys_sub
  · intro kv hkv p hp
    rcases List.mem_map.mp hkv with ⟨kv0, hkv0, heq⟩
    by_cases hc : kv0.2 = some kv0.1
    · rw [← heq] at hp
      rw [if_pos hc] at hp
      have hp2 : some root = some p := hp
      injection hp2 with hp3
      rw [← hp3]
      refine ⟨?_, hre⟩
      rw [hkeys]
      exact root_mem_pmKeys hI.root_null
    · rw [← heq] at hp
      rw [if_neg hc] at hp
      have hp2 : kv0.2 = some p := hp
      obtain ⟨h1, h2⟩ := hI.vals_keys kv0 hkv0 p hp2
      refine ⟨?_, h2⟩
      rw [hkeys]
      exact h1
  · have h0 := pmGet_map_vals
      (fun k v => if v = some k then some root else v) m root
    rw [hI.root_null] at h0
    exact h0

/-- The depth-first fold of `resolveManyToMany` preserves the invariant and
the key set, and every file it visits ends with a terminating chain. -/
theorem dfsFold_inv {root : String} {files : List String}
    (hre : ¬ root = "") :
    ∀ (todo : List String) (acc : ParentMap × List String),
      PMInv root files acc.1 →
      (∀ v ∈ acc.2, GoodChain acc.1 v) →
      (∀ f ∈ todo, f ∈ pmKeys acc.1) →
      PMInv root files (dfsFold root todo acc).1 ∧
      pmKeys (dfsFold root todo acc).1 = pmKeys acc.1 ∧
      (∀ v ∈ (dfsFold root todo acc).2,
        GoodChain (dfsFold root todo acc).1 v) ∧
      (∀ v ∈ acc.2, v ∈ (dfsFold root todo acc).2) ∧
      (∀ f ∈ todo, f ∈ (dfsFold root todo acc).2) := by
  intro todo
  induction todo with
  | nil =>
    intro acc hI hgood _
    exact ⟨hI, rfl, hgood, fun v hv => hv, by simp⟩
  | cons f rest ih =>
    intro acc hI hgood hkeys
    rw [show dfsFold root (f :: rest) acc = dfsFold root rest
      (dfsVisit root (acc.1.length + 1) acc.1 acc.2 [] f) from rfl]
    have hfuel : ((pmKeys acc.1).filter
        (fun x => decide (¬ x ∈ ([] : List String)))).length + 1
          ≤ acc.1.length + 1 := by
      have hfe : (pmKeys acc.1).filter
          (fun x => decide (¬ x ∈ ([] : List String))) = pmKeys acc.1 :=
        List.filter_eq_self.mpr (fun a _ => by simp)
      rw [hfe, pmKeys_length]
    have hpost := dfsVisit_spec hre (acc.1.length + 1) acc.1 acc.2 [] f hI
      hgood (by simp) (hkeys f (List.mem_cons_self f rest)) hfuel
    obtain ⟨sI, skeys, _, _, svis, svsub, _, sin⟩ := hpost
    obtain ⟨rI, rkeys, rgood, rsub, rall⟩ := ih
      (dfsVisit root (acc.1.length + 1) acc.1 acc.2 [] f) sI svis
      (by
        intro x hx
        rw [skeys]
        exact hkeys x (List.mem_cons_of_mem _ hx))
    refine ⟨rI, rkeys.trans skeys, rgood, ?_, ?_⟩
    · intro v hv
      exact rsub v (svsub v hv)
    · intro x hx
      rcases List.mem_cons.mp hx with hx | hx
      · rw [hx]
        exact rsub f (sin rfl)
      · exact rall x hx

/-- The depth-first stage of `resolveManyToMany`, over an arbitrary input
map satisfying the invariant whose keys include the export set. -/
theorem resolve_tail {root : String} {files : List String}
    (hre : ¬ root = "") {M2 : ParentMap} (hI2 : PMInv root files M2)
    (hfiles2 : ∀ f ∈ files, f ∈ pmKeys M2) :
    PMInv root files (dfsFold root files (M2, [])).1 ∧
    (∀ f ∈ files, f ∈ pmKeys (dfsFold root files (M2, [])).1) ∧
    (∀ f ∈ files, GoodChain (dfsFold root files (M2, [])).1 f) := by
  obtain ⟨rI, rkeys, rgood, _, rall⟩ := dfsFold_inv hre files (M2, []) hI2
    (by simp) hfiles2
  refine ⟨rI, ?_, ?_⟩
  · intro f hf
    rw [rkeys]
    exact hfiles2 f hf
  · intro f hf
    exact rgood f (rall f hf)

/-- `resolveManyToMany` preserves the invariant and key membership and leaves
every file of the export set with a terminating parent chain. -/
theorem resolveManyToMany_good {root : String} {files : List String}
    {m : ParentMap} (policy : ManyToManyPolicy)
    (hre : ¬ root = "") (hI : PMInv root files m)
    (hfiles : ∀ f ∈ files, f ∈ pmKeys m) :
    PMInv root files (resolveManyToMany root files m policy) ∧
    (∀ f ∈ files, f ∈ pmKeys (resolveManyToMany root files m policy)) ∧
    (∀ f ∈ files, GoodChain (resolveManyToMany root files m policy) f) := by
  obtain ⟨hI1, hmono1⟩ := rmtmStep1_inv
    (fun acc f => if f = root then acc
      else match pmGet acc f with
        | some (some p) => if p = "" then pmSet acc f (some root) else acc
        | _ => pmSet acc f (some root))
    (fun _ _ => rfl) hre files m (fun f hf => hf) hI
  obtain ⟨hI2, hkeys2⟩ := rmtmStep2_inv hre hI1
  have hfiles2 : ∀ f ∈ files,
      f ∈ pmKeys ((files.foldl
        (fun acc f => if f = root then acc
          else match pmGet acc f with
            | some (some p) =>
              if p = "" then pmSet acc f (some root) else acc
            | _ => pmSet acc f (some root)) m).map
        (fun kv => if kv.2 = some kv.1 then (kv.1, some root) else kv)) := by
    intro f hf
    rw [hkeys2]
    exact hmono1 f (hfiles f hf)
  obtain ⟨rI, rkeys, rgood⟩ := resolve_tail hre hI2 hfiles2
  exact ⟨rI, rkeys, rgood⟩

/-- Pigeonhole bound: a terminating chain of an invariant-satisfying map
reaches null within the size of the export set. -/
theorem reach_within {root : String} {files : List String} {m : ParentMap}
    (hroot : root ∈ files) (hI : PMInv root files m) {d : String}
    (hd : d ∈ pmKeys m) (hg : GoodChain m d) :
    reachesNullIn m d files.length = true := by
  have hreach := reach_aux hI (pmKeys m).length d [] List.nodup_nil
    (by simp) hd (by simp) (by simp) (by simp) hg
  have hsub : pmKeys m ⊆ files := by
    intro k hk
    rcases hI.keys_sub k hk with h | h
    · rw [h]; exact hroot
    · exact h
  exact reach_mono (hI.nodup.subperm hsub).length_le hreach

theorem folderParentGo_mem {files : List String} :
    ∀ (segs : List (List Char)) {p : String},
      folderParentGo files segs = some p → p ∈ files := by
  intro segs
  induction segs with
  | nil => intro p h; simp [folderParentGo] at h
  | cons seg rest ih =>
    intro p h
    simp only [folderParentGo] at h
    split_ifs at h with h1 h2
    · injection h with h3; rw [← h3]; exact h1
    · injection h with h3; rw [← h3]; exact h2
    · exact ih h

theorem folderParentCandidate_mem {f : String} {files : List String}
    {p : String} (h : folderParentCandidate f files = some p) : p ∈ files :=
  folderParentGo_mem _ h

theorem resolveTitleToPath_mem {env : VaultMeta} {title fromPath : String}
    {files : List String} {p : String}
    (h : resolveTitleToPath env title fromPath files = some p) :
    p ∈ files := by
  unfold resolveTitleToPath at h
  cases hr : env.resolveDest title fromPath with
  | none =>
    rw [hr] at h
    have h2 : (none : Option String) = some p := h
    exact Option.noConfusion h2
  | some pe =>
    obtain ⟨q, e⟩ := pe
    rw [hr] at h
    have h2 : (if e = "md" ∧ q ∈ files then some q else none) = some p := h
    split_ifs at h2 with hc
    injection h2 with h3
    rw [← h3]
    exact hc.2

theorem firstLinked_go_mem {env : VaultMeta} {f : String}
    {files : List String} :
    ∀ (ls : List String) {p : String},
      firstLinkedExportedParent.go env f files ls = some p → p ∈ files := by
  intro ls
  induction ls with
  | nil => intro p h; simp [firstLinkedExportedParent.go] at h
  | cons l rest ih =>
    intro p h
    simp only [firstLinkedExportedParent.go] at h
    cases hr : env.resolveDest l f with
    | none =>
      rw [hr] at h
      have h2 : firstLinkedExportedParent.go env f files rest = some p := h
      exact ih h2
    | some pe =>
      obtain ⟨q, e⟩ := pe
      rw [hr] at h
      have h2 : (if e = "md" ∧ q ∈ files then some q
        else firstLinkedExportedParent.go env f files rest) = some p := h
      split_ifs at h2 with hc
      · injection h2 with h3; rw [← h3]; exact hc.2
      · exact ih h2

theorem firstLinkedExportedParent_mem {env : VaultMeta} {f : String}
    {files : List String} {p : String}
    (h : firstLinkedExportedParent env f files = some p) : p ∈ files :=
  firstLinked_go_mem _ h

/-- The shared shape of the four non-flat `buildHierarchy` modes: build the
candidate map, re-pin the root to null, resolve; the result lets every file
reach null within the size of the export set. -/
theorem mode_reaches {root : String} {files : List String}
    (cand : String → String) (g : ParentMap → String → ParentMap)
    (hg : ∀ acc f, g acc f = if f = root then acc
      else pmSet acc f (some (cand f)))
    (policy : ManyToManyPolicy) (hroot : root ∈ files)
    (hre : ¬ root = "") (hne : ¬ "" ∈ files)
    (hcand : ∀ f, cand f = root ∨ cand f ∈ files) :
    ∀ d ∈ files,
      reachesNullIn
        (resolveManyToMany root files
          (pmSet (files.foldl g (pmSet [] root none)) root none) policy)
        d files.length = true := by
  obtain ⟨hC, _, hall, _⟩ := buildFold_inv cand g hg hre hne hcand files
    (pmSet [] root none) (fun f hf => hf) (ConstrInv_init root files)
  obtain ⟨hC2, hmono2⟩ := ConstrInv_set_root_none hC
  have hfilesk : ∀ f ∈ files,
      f ∈ pmKeys (pmSet (files.foldl g (pmSet [] root none)) root none) :=
    fun f hf => hmono2 f (hall f hf)
  have hI : PMInv root files
      (pmSet (files.foldl g (pmSet [] root none)) root none) :=
    ConstrInv_full hC2 hfilesk
  obtain ⟨rI, rkeys, rgood⟩ := resolveManyToMany_good policy hre hI hfilesk
  intro d hd
  exact reach_within hroot rI (rkeys d hd) (rgood d hd)

/-- C6: for every hierarchy result produced by `buildHierarchy`, in every
mode and under every tie-break policy, following the parent map from any
document of the export set reaches null within the size of the export set.
Stated for export sets that contain the root page and no empty path, which
the exporter guarantees by construction (`ensureRootPresent` and vault
paths). -/
theorem C6_hierarchy_acyclic (env : VaultMeta) (root : String)
    (files : List String) (mode : HierarchyMode) (policy : ManyToManyPolicy)
    (hroot : root ∈ files) (hne : ¬ "" ∈ files) :
    ∀ d ∈ files,
      reachesNullIn
        (buildHierarchy env root files mode policy).parentPathByPath
        d files.length = true := by
  have hre : ¬ root = "" := fun hc => hne (hc ▸ hroot)
  cases mode with
  | flat =>
    obtain ⟨hC, _, hall, hvals⟩ := buildFold_inv (fun _ => root)
      (fun acc f => if f = root then acc else pmSet acc f (some root))
      (fun _ _ => rfl) hre hne (fun _ => Or.inl rfl) files
      (pmSet [] root none) (fun f hf => hf) (ConstrInv_init root files)
    have hIf : PMInv root files (files.foldl
        (fun acc f => if f = root then acc else pmSet acc f (some root))
        (pmSet [] root none)) :=
      ConstrInv_full hC hall
    intro d hd
    have hdk := hall d hd
    have hgood : GoodChain (files.foldl
        (fun acc f => if f = root then acc else pmSet acc f (some root))
        (pmSet [] root none)) d := by
      have hsome := (pm_mem_keys _ d).mpr hdk
      cases hgd : pmGet (files.foldl
          (fun acc f => if f = root then acc else pmSet acc f (some root))
          (pmSet [] root none)) d with
      | none => rw [hgd] at hsome; simp at hsome
      | some v =>
        have hmem := pmGet_entry_mem hgd
        rcases hvals (d, v) hmem with hin | hshape
        · have h2 : d = root ∧ v = none := by simpa [pmSet] using hin
          exact good_of_null (by rw [hgd, h2.2])
        · have hvr : v = some root := hshape
          exact good_step_back (by rw [hgd, hvr])
            (good_of_null hIf.root_null)
    exact reach_within hroot hIf hdk hgood
  | folder =>
    intro d hd
    exact mode_reaches (fun f => (folderParentCandidate f files).getD root)
      (fun acc f => if f = root then acc
        else pmSet acc f (some ((folderParentCandidate f files).getD root)))
      (fun _ _ => rfl) policy hroot hre hne
      (fun f => by
        show (folderParentCandidate f files).getD root = root ∨
          (folderParentCandidate f files).getD root ∈ files
        cases hfc : folderParentCandidate f files with
        | none => left; rfl
        | some p =>
          right
          exact folderParentCandidate_mem hfc)
      d hd
  | frontmatter =>
    intro d hd
    exact mode_reaches
      (fun f => ((env.fmParent f).bind
        (fun nm => resolveTitleToPath env nm f files)).getD root)
      (fun acc f => if f = root then acc
        else pmSet acc f (some (((env.fmParent f).bind
          (fun nm => resolveTitleToPath env nm f files)).getD root)))
      (fun _ _ => rfl) policy hroot hre hne
      (fun f => by
        show ((env.fmParent f).bind
            (fun nm => resolveTitleToPath env nm f files)).getD root = root ∨
          ((env.fmParent f).bind
            (fun nm => resolveTitleToPath env nm f files)).getD root ∈ files
        cases hfm : env.fmParent f with
        | none => left; rfl
        | some nm =>
          show (resolveTitleToPath env nm f files).getD root = root ∨
            (resolveTitleToPath env nm f files).getD root ∈ files
          cases hrt : resolveTitleToPath env nm f files with
          | none => left; rfl
          | some p =>
            right
            exact resolveTitleToPath_mem hrt)
      d hd
  | links =>
    intro d hd
    exact mode_reaches
      (fun f => (firstLinkedExportedParent env f files).getD root)
      (fun acc f => if f = root then acc
        else pmSet acc f
          (some ((firstLinkedExportedParent env f files).getD root)))
      (fun _ _ => rfl) policy hroot hre hne
      (fun f => by
        show (firstLinkedExportedParent env f files).getD root = root ∨
          (firstLinkedExportedParent env f files).getD root ∈ files
        cases hfc : firstLinkedExportedParent env f files with
        | none => left; rfl
        | some p =>
          right
          exact firstLinkedExportedParent_mem hfc)
      d hd
  | hybrid =>
    intro d hd
    exact mode_reaches
      (fun f => (((folderParentCandidate f files).orElse
        (fun _ => firstLinkedExportedParent env f files)).getD root))
      (fun acc f => if f = root then acc
        else pmSet acc f (some (((folderParentCandidate f files).orElse
          (fun _ => firstLinkedExportedParent env f files)).getD root)))
      (fun _ _ => rfl) policy hroot hre hne
      (fun f => by
        show ((folderParentCandidate f files).orElse
            (fun _ => firstLinkedExportedParent env f files)).getD root
              = root ∨
          ((folderParentCandidate f files).orElse
            (fun _ => firstLinkedExportedParent env f files)).getD root
              ∈ files
        cases hfc : folderParentCandidate f files with
        | some p =>
          right
          exact folderParentCandidate_mem hfc
        | none =>
          show (firstLinkedExportedParent env f files).getD root = root ∨
            (firstLinkedExportedParent env f files).getD root ∈ files
          cases hfl : firstLinkedExportedParent env f files with
          | none => left; rfl
          | some p =>
            right
            exact firstLinkedExportedParent_mem hfl)
      d hd

/-! ## C1 / C2 — the export orchestrator -/

/-- C1 (refuted): in dry-run mode pass 1 still issues remote content
writes.  On a one-note vault with `dryRun` enabled, the export run issues a
create call to the remote content service: the source guards only the
snapshot writes and pass 2 with `dryRun`, while `ensurePageForFile` calls
`updatePage` / `searchPageByTitle` / `createPage` unconditionally. -/
theorem C1_dry_run_issues_content_write :
    c1Settings.dryRun = true ∧
    (match exportInternal c1Env c1Settings HierarchyMode.flat
        ManyToManyPolicy.firstSeen "Root.md" none none [] [] with
      | Except.ok s => s.trace.any isContentWrite
      | Except.error _ => false) = true :=
  ⟨rfl, by decide⟩

/-- C2 counterexample: a non-404 failure while creating the first document
aborts the whole export run — the run returns the error and the second
document of the export set is never processed — contradicting the claimed
per-document failure isolation. -/
theorem C2_counterexample_error_aborts_run :
    c2Env.exportSet = ["Root.md", "A.md"] ∧
    (match exportInternal c2Env c2Settings HierarchyMode.flat
        ManyToManyPolicy.firstSeen "Root.md" none none [] [] with
      | Except.error msg => some msg
      | Except.ok _ => none) = some "boom 500" :=
  ⟨rfl, by decide⟩

/-- C2 (corrected): the failure handling the passes actually implement.  An
error from a document's pass-1 `ensurePageForFile` or pass-2
`updatePageContentWithLinks` aborts the run with that error — the remaining
documents are not processed — while the caught label-sync and
attachment-upload calls never change the run state: their failures are
logged and swallowed. -/
theorem C2_failure_isolation_corrected :
    (∀ (env : ExportEnv) (st : ExpSettings)
        (al : Option (List (String × Bool))) (mode : HierarchyMode)
        (rootPath : String) (rootParent : Option String) (pm : ParentMap)
        (f : String) (rest : List String) (s : ExpState) (msg : String),
      ensurePageForFile env st al
          (parentOverrideFor st mode rootPath rootParent pm s.mapping f) f s
        = Except.error msg →
      pass1Go env st al mode rootPath rootParent pm (f :: rest) s
        = Except.error msg) ∧
    (∀ (env : ExportEnv) (st : ExpSettings)
        (al : Option (List (String × Bool))) (f : String)
        (rest : List String) (s : ExpState) (msg : String),
      updatePageContentWithLinks env st al f s = Except.error msg →
      pass2Go env st al (f :: rest) s = Except.error msg) ∧
    (∀ (s : ExpState) (op : RemoteOp) (r : Except String Unit),
      tryOp s op r = recOp s op) := by
  refine ⟨?_, ?_, ?_⟩
  · intro env st al mode rootPath rootParent pm f rest s msg h
    simp only [pass1Go, h]
  · intro env st al f rest s msg h
    simp only [pass2Go, h]
  · intro s op r
    cases r with
    | ok u => rfl
    | error e => rfl

/-- Witness: the corrected failure-isolation theorem applied to the
concrete two-note vault whose root create call fails. -/
theorem C2_failure_isolation_corrected_witness :
    (ensurePageForFile c2Env c2Settings none
        (parentOverrideFor c2Settings HierarchyMode.flat "Root.md" none []
          (ExpState.mk [] [] []).mapping "Root.md")
        "Root.md" (ExpState.mk [] [] []) = Except.error "boom 500") ∧
    pass1Go c2Env c2Settings none HierarchyMode.flat "Root.md" none []
      ("Root.md" :: ["A.md"]) (ExpState.mk [] [] []) =
      Except.error "boom 500" :=
  ⟨by rfl, C2_failure_isolation_corrected.1 c2Env c2Settings none
    HierarchyMode.flat "Root.md" none [] "Root.md" ["A.md"]
    (ExpState.mk [] [] []) "boom 500" (by rfl)⟩

/-- Witness: the acyclicity theorem evaluated on a concrete two-file vault
in links mode. -/
theorem C6_hierarchy_acyclic_witness :
    ("Root.md" ∈ c6Files ∧ ¬ "" ∈ c6Files) ∧
    ∀ d ∈ c6Files,
      reachesNullIn
        (buildHierarchy c6Env "Root.md" c6Files HierarchyMode.links
          ManyToManyPolicy.firstSeen).parentPathByPath
        d c6Files.length = true :=
  ⟨⟨by decide, by decide⟩,
    C6_hierarchy_acyclic c6Env "Root.md" c6Files HierarchyMode.links
      ManyToManyPolicy.firstSeen (by decide) (by decide)⟩

end ConfluenceSync
